import Mathlib

/-!
Verification of the genealogy commit-graph engine (`family_tree_tool/main.py`).

The repository stores persons as YAML records (the attribute store, modelled as a
`List PersonRec`) and the relationship graph as a git repository (the commit
substrate, modelled as `GState`): commits are nodes with integer shas and parent
lists, tags are named pointers `(String × Nat)`, and `headSha` is the working
position.  Each operation of `main.py` is translated into a pure Lean function
over this state; unbounded Python recursion is rendered with an explicit fuel
argument returning `Option` (`none` = the recursion exceeds every finite depth),
and the interactive `click.confirm` / `click.prompt` collaborators become
boolean / selection parameters.
-/

/-- A person's attribute record (the YAML file written by `add_person`).
Only the fields the graph engine reads are kept. -/
structure PersonRec where
  id : String
  first_name : String
  last_name : String
  name : String
deriving DecidableEq, Repr

/-- A commit of the graph repository: an integer stand-in for the sha and the
list of parent shas (creation order gives larger shas to later commits). -/
structure Commit where
  sha : Nat
  parents : List Nat
deriving DecidableEq, Repr

/-- The state of the graph repository: its commits, its tags (name ↦ sha) and
the commit `HEAD` currently points at. -/
structure GState where
  commits : List Commit
  tags : List (String × Nat)
  headSha : Nat
deriving DecidableEq, Repr

/-- Edge kinds produced by `_get_edges`. -/
inductive EdgeType
  | child
  | partner
deriving DecidableEq, BEq, Repr

/-- An edge of the materialized relationship graph.  `src`/`dst` model the
`'from'`/`'to'` keys of the Python dictionaries (`from` is reserved in Lean). -/
structure Edge where
  src : String
  dst : String
  etype : EdgeType
deriving DecidableEq, BEq, Repr

/-- Model of `_get_short_id`: first 8 characters of a full id, `"N/A"` for a falsy id. -/
def _get_short_id (fullId : String) : String :=
  if fullId.isEmpty then "N/A" else fullId.take 8

/-- Tag lookup (`repo.tags[name]`), `none` when no tag has that name. -/
def tagLookup (g : GState) (name : String) : Option Nat :=
  (g.tags.find? (fun t => t.1 == name)).map (fun t => t.2)

/-- The tag name `marry` gives to a marriage commit:
`f"marriage_{short(id1)}_{short(id2)}"` (argument order preserved). -/
def marriageTagName (id1 id2 : String) : String :=
  "marriage_" ++ _get_short_id id1 ++ "_" ++ _get_short_id id2

/-- Model of `_find_marriage_commit`: try the tag for `(id1, id2)`, then for `(id2, id1)`. -/
def _find_marriage_commit (g : GState) (id1 id2 : String) : Option Nat :=
  match tagLookup g (marriageTagName id1 id2) with
  | some c => some c
  | none => tagLookup g (marriageTagName id2 id1)

/-- Holds when `sub` is a leading segment of `s` (character-list version of
`str.startswith`; Lean's built-in `String.startsWith` does not reduce in the
kernel, so the check is spelled out on character lists). -/
def strStartsList : List Char → List Char → Bool
  | [], _ => true
  | _ :: _, [] => false
  | a :: as, b :: bs => a == b && strStartsList as bs

/-- The Python `s.startswith(pre)`. -/
def strStartsWith (s pre : String) : Bool :=
  strStartsList pre.data s.data

/-- Holds when `sub` occurs contiguously inside `s` (the Python `in` operator on strings). -/
def strContainsList (sub : List Char) : List Char → Bool
  | [] => sub.isEmpty
  | c :: rest => strStartsList sub (c :: rest) || strContainsList sub rest

/-- The Python `s.lower()`, character by character. -/
def strToLower (s : String) : String :=
  String.mk (s.data.map Char.toLower)

/-- The Python `s.split('_')`: split at every underscore, keeping empty parts. -/
def splitUnderscore : List Char → List (List Char)
  | [] => [[]]
  | c :: rest =>
    if c == '_' then [] :: splitUnderscore rest
    else
      match splitUnderscore rest with
      | h :: t => (c :: h) :: t
      | [] => [[c]]

/-- Model of `_get_person_name_by_id`: glob `people/{short_id}*.yml` and return the first
record whose full id has the query as a prefix.  The glob filter
(`filename.startswith(query[:8])`) is implied by `id.startswith(query)` because
a record's filename starts with the first 8 characters of its id, so the net
effect is the first matching record in store order; `none` models the
`{'id': None, ...}` fallback dictionary. -/
def _get_person_name_by_id (data : List PersonRec) (personId : String) :
    Option PersonRec :=
  data.find? (fun p => strStartsWith p.id personId)

/-- The name-match predicate of `_get_person_id_by_name`: case-insensitive
substring of the full name, or exact case-insensitive first/last name. -/
def nameMatches (query : String) (p : PersonRec) : Bool :=
  strContainsList (strToLower query).data (strToLower p.name).data ||
  strToLower query == strToLower p.first_name ||
  strToLower query == strToLower p.last_name

/-- Model of `_get_person_id_by_name`: all records matching the name query, in store order. -/
def _get_person_id_by_name (data : List PersonRec) (query : String) :
    List PersonRec :=
  data.filter (nameMatches query)

/-- Model of `_resolve_person_id_input`.  `pick` models the interactive
`click.prompt` selection for the ambiguous case (the retry loop is modelled as
one valid selection; an out-of-range pick yields `none`).  Returns `none`
where the Python function returns `None`. -/
def _resolve_person_id_input (data : List PersonRec) (g : GState)
    (pick : List PersonRec → Nat) (input : String) : Option String :=
  if input.isEmpty then none
  else
    match _get_person_name_by_id data input with
    | some p => some p.id
    | none =>
      let ms := _get_person_id_by_name data input
      if ms.isEmpty then
        if (tagLookup g input).isSome then some input else none
      else if ms.length == 1 then
        (ms.get? 0).map (fun p => p.id)
      else
        (ms.get? (pick ms)).map (fun p => p.id)

/-- Tags whose name starts with `"marriage_"`. -/
def marriageTags (g : GState) : List (String × Nat) :=
  g.tags.filter (fun t => strStartsWith t.1 "marriage_")

/-- Tags naming persons: every tag that is not a marriage tag nor `GRAPH_ROOT`. -/
def personTags (g : GState) : List (String × Nat) :=
  g.tags.filter (fun t => !strStartsWith t.1 "marriage_" && t.1 != "GRAPH_ROOT")

/-- The two short ids recorded in a marriage tag name, when it splits as
`["marriage", s1, s2]`. -/
def marriageTagParts (name : String) : Option (String × String) :=
  match splitUnderscore name.data with
  | [_, s1, s2] => some (String.mk s1, String.mk s2)
  | _ => none

/-- The node whose full id starts with the given short id (first match in
store order), as in `next((n['id'] for n in nodes if n['id'].startswith(s)), None)`. -/
def nodeByShort (nodes : List PersonRec) (s : String) : Option PersonRec :=
  nodes.find? (fun n => strStartsWith n.id s)

/-- Model of `_get_edges`: partner edges from marriage tag names, child edges from person
tags whose commit has a marriage commit among its parents.  The Python
`marriage_commit_to_tag` dictionary keyed by commit sha is modelled by a
first-match lookup over the marriage tags. -/
def _get_edges (g : GState) (nodes : List PersonRec) : List Edge :=
  let mtags := marriageTags g
  let partnerEdges := mtags.filterMap (fun t =>
    match marriageTagParts t.1 with
    | some (s1, s2) =>
      match nodeByShort nodes s1, nodeByShort nodes s2 with
      | some n1, some n2 => some { src := n1.id, dst := n2.id, etype := .partner }
      | _, _ => none
    | none => none)
  let childEdges := (personTags g).flatMap (fun t =>
    match nodeByShort nodes t.1 with
    | some child =>
      match g.commits.find? (fun c => c.sha == t.2) with
      | some c =>
        c.parents.flatMap (fun psha =>
          match mtags.find? (fun mt => mt.2 == psha) with
          | some mt =>
            match marriageTagParts mt.1 with
            | some (s1, s2) =>
              match nodeByShort nodes s1, nodeByShort nodes s2 with
              | some p1, some p2 =>
                [{ src := p1.id, dst := child.id, etype := .child },
                 { src := p2.id, dst := child.id, etype := .child }]
              | _, _ => []
            | none => []
          | none => [])
      | none => []
    | none => [])
  partnerEdges ++ childEdges

/-- The `parents_map` built by `_get_relationships`: for each child id the list
of parent ids, in edge order (`person_id in parents_map` ↔ the list is nonempty). -/
def parentsMapOf (g : GState) (nodes : List PersonRec) : String → List String :=
  fun cid =>
    (((_get_edges g nodes).filter (fun e => e.etype == .child && e.dst == cid)).map
      (fun e => e.src))

/-- Model of `_get_ancestors`, with explicit fuel: the Python function recurses through
`parents_map` with no memoization and no cycle guard, so its recursion depth is
unbounded; `none` means the computation exceeds the given recursion depth (on a
cyclic map it exceeds every depth).  For each parent `p` the Python loop does
`ancestors.add(p); ancestors.update(_get_ancestors(p, parents_map))`. -/
def getAncestorsF (pm : String → List String) : Nat → String → Option (Finset String)
  | 0, _ => none
  | f + 1, a =>
    (pm a).foldr
      (fun p acc =>
        match getAncestorsF pm f p, acc with
        | some s1, some s2 => some (insert p (s1 ∪ s2))
        | _, _ => none)
      (some ∅)

/-- A fresh sha for a newly created commit (larger than every existing sha). -/
def freshSha (g : GState) : Nat :=
  g.commits.foldl (fun m c => max m (c.sha + 1)) 0

/-- Outcomes of `marry`. -/
inductive MarryRes
  | ok
  | resolveFail
  | selfMarriage
  | abortedByUser
  | alreadyMarried
  | personNotFound
deriving DecidableEq, Repr

/-- Model of `marry`.  `confirmAnc` models the `click.confirm` answer to the
person-marrying-their-ancestor warning.  The ancestor closures are computed
with fuel `data.length + 1` (enough for every acyclic `parents_map` over the
store, see `getAncestorsF`); `none` models the Python call never returning.
On success a merge commit with parents `(maleCommit, femaleCommit)` is created,
`HEAD` advances to it, and the order-dependent marriage tag is set. -/
def marry (data : List PersonRec) (g : GState) (pick : List PersonRec → Nat)
    (confirmAnc : Bool) (male female : String) : Option (MarryRes × GState) :=
  match _resolve_person_id_input data g pick male,
        _resolve_person_id_input data g pick female with
  | some m, some f =>
    if m = f then some (.selfMarriage, g)
    else
      let pm := parentsMapOf g data
      match getAncestorsF pm (data.length + 1) m,
            getAncestorsF pm (data.length + 1) f with
      | some mAnc, some fAnc =>
        if (m ∈ fAnc ∨ f ∈ mAnc) ∧ confirmAnc = false then
          some (.abortedByUser, g)
        else if (_find_marriage_commit g m f).isSome then
          some (.alreadyMarried, g)
        else
          match tagLookup g (_get_short_id m), tagLookup g (_get_short_id f) with
          | some mc, some fc =>
            let sha := freshSha g
            some (.ok,
              { commits := g.commits ++ [{ sha := sha, parents := [mc, fc] }],
                tags := g.tags ++ [(marriageTagName m f, sha)],
                headSha := sha })
          | _, _ => some (.personNotFound, g)
      | _, _ => none
  | _, _ => some (.resolveFail, g)

/-- Outcomes of `remove_commit`. -/
inductive RemRes
  | ok
  | notFound
  | hasChildren
  | rootCommit
deriving DecidableEq, Repr

/-- Model of `remove_commit`: refuse a missing commit (`ValueError`) and a commit with
child commits (`CommitHasChildrenError`); otherwise move `HEAD` to the commit's
first parent when `HEAD` points at it (refusing a parentless root), delete the
tags pointing at the commit, and drop the commit (`git filter-repo` skip). -/
def remove_commit (g : GState) (csha : Nat) : RemRes × GState :=
  match g.commits.find? (fun c => c.sha == csha) with
  | none => (.notFound, g)
  | some c =>
    if (g.commits.filter (fun d => csha ∈ d.parents)).isEmpty = false then
      (.hasChildren, g)
    else
      if g.headSha == csha then
        match c.parents with
        | [] => (.rootCommit, g)
        | p :: _ =>
          (.ok,
            { commits := g.commits.filter (fun d => d.sha ≠ csha),
              tags := g.tags.filter (fun t => t.2 ≠ csha),
              headSha := p })
      else
        (.ok,
          { commits := g.commits.filter (fun d => d.sha ≠ csha),
            tags := g.tags.filter (fun t => t.2 ≠ csha),
            headSha := g.headSha })

/-- Model of `_find_children_from_marriage`: the full ids of persons whose tagged commit
has the marriage commit among its parents. -/
def _find_children_from_marriage (g : GState) (data : List PersonRec)
    (msha : Nat) : List String :=
  (personTags g).filterMap (fun t =>
    match nodeByShort data t.1 with
    | some n =>
      match g.commits.find? (fun c => c.sha == t.2) with
      | some c => if msha ∈ c.parents then some n.id else none
      | none => none
    | none => none)

/-- Outcomes of `unmarry`. -/
inductive UnmarryRes
  | ok
  | resolveFail
  | noMarriage
  | hasChildrenErr
  | removeFail
deriving DecidableEq, Repr

/-- Model of `unmarry`: resolve both ids, find the marriage commit for the pair, refuse
when any person's node still has it as parent, otherwise remove the (leaf)
marriage commit via `remove_commit`. -/
def unmarry (data : List PersonRec) (g : GState) (pick : List PersonRec → Nat)
    (person1 person2 : String) : UnmarryRes × GState :=
  match _resolve_person_id_input data g pick person1,
        _resolve_person_id_input data g pick person2 with
  | some r1, some r2 =>
    match _find_marriage_commit g r1 r2 with
    | none => (.noMarriage, g)
    | some msha =>
      if (_find_children_from_marriage g data msha).isEmpty = false then
        (.hasChildrenErr, g)
      else
        match remove_commit g msha with
        | (.ok, g2) => (.ok, g2)
        | (_, g2) => (.removeFail, g2)
  | _, _ => (.resolveFail, g)

/-- The parent adjacency of a graph state: the parent shas of the (first)
commit with the given sha, `[]` for a missing sha. -/
def parAdj (g : GState) : Nat → List Nat :=
  fun s => ((g.commits.find? (fun c => c.sha == s)).map (fun c => c.parents)).getD []

/-- Fuel-bounded ancestry check (`git merge-base --is-ancestor b a`, walking
parent edges from `a` down): `isAncB par f a b` holds when `b` is reachable
from `a` through at most `f - 1` parent steps. -/
def isAncB (par : Nat → List Nat) : Nat → Nat → Nat → Bool
  | 0, _, _ => false
  | f + 1, a, b => a == b || (par a).any (fun p => isAncB par f p b)

/-- The history rewrite performed by `git replace --graft target newParent`
followed by `git filter-repo`: the target commit's parents are replaced by
exactly `[newParent]`; shas, tags and `HEAD` are preserved by the pointer
remapping. -/
def graftRewrite (g : GState) (target newParent : Nat) : GState :=
  { g with commits := g.commits.map (fun c =>
      if c.sha == target then { c with parents := [newParent] } else c) }

/-- Model of `change_commit_parent`: validate both shas, refuse (`False`, state intact)
when the target is an ancestor of the new parent (`repo.is_ancestor(target,
new_parent)` — the rewrite would create a cycle), otherwise graft and rewrite.
In a real repository every parent sha precedes its child's sha (the `parWF`
hypothesis of the theorems), under which fuel `newParent + 1` makes the
ancestry check exact. -/
def change_commit_parent (g : GState) (target newParent : Nat) : Bool × GState :=
  if (g.commits.find? (fun c => c.sha == target)).isNone then (false, g)
  else if (g.commits.find? (fun c => c.sha == newParent)).isNone then (false, g)
  else if isAncB (parAdj g) (newParent + 1) newParent target then (false, g)
  else (true, graftRewrite g target newParent)

/-- Outcomes of `add_child`. -/
inductive AddChildRes
  | ok
  | resolveFail
  | ancestorErr
  | partnerErr
  | abortedByUser
  | notFoundErr
  | rewriteFail
deriving DecidableEq, Repr

/-- Model of `add_child`.  `confirmMove` answers the re-parenting confirmation when the
child already has parents; `confirmCreate`/`confirmAnc` answer the prompts on
the marriage-creation path.  The validation sequence mirrors the source: the
ancestor/equality check on `all_ancestors` runs first, then the
child-partner-conflict check, then the re-parent confirmation; only after all
of them does the function touch the graph (find-or-create the marriage, then
`change_commit_parent(child, marriage)`). -/
def add_child (data : List PersonRec) (g : GState) (pick : List PersonRec → Nat)
    (confirmMove confirmCreate confirmAnc : Bool)
    (fatherIn motherIn childIn : String) : Option (AddChildRes × GState) :=
  match _resolve_person_id_input data g pick fatherIn,
        _resolve_person_id_input data g pick motherIn,
        _resolve_person_id_input data g pick childIn with
  | some father, some mother, some child =>
    let pm := parentsMapOf g data
    match getAncestorsF pm (data.length + 1) father,
          getAncestorsF pm (data.length + 1) mother with
    | some fAnc, some mAnc =>
      let allAncestors := insert mother (insert father (fAnc ∪ mAnc))
      if child ∈ allAncestors then some (.ancestorErr, g)
      else if (_find_marriage_commit g child father).isSome ∨
              (_find_marriage_commit g child mother).isSome then
        some (.partnerErr, g)
      else if (pm child).isEmpty = false ∧ confirmMove = false then
        some (.abortedByUser, g)
      else
        match tagLookup g (_get_short_id father), tagLookup g (_get_short_id mother),
              tagLookup g (_get_short_id child) with
        | some _, some _, some childSha =>
          match _find_marriage_commit g father mother with
          | some msha =>
            match change_commit_parent g childSha msha with
            | (true, g2) => some (.ok, g2)
            | (false, g2) => some (.rewriteFail, g2)
          | none =>
            if confirmCreate = false then some (.abortedByUser, g)
            else
              match marry data g pick confirmAnc father mother with
              | some (.ok, g1) =>
                match _find_marriage_commit g1 father mother with
                | some msha =>
                  match change_commit_parent g1 childSha msha with
                  | (true, g2) => some (.ok, g2)
                  | (false, g2) => some (.rewriteFail, g2)
                | none => some (.notFoundErr, g1)
              | some (_, g1) => some (.rewriteFail, g1)
              | none => none
        | _, _, _ => some (.notFoundErr, g)
    | _, _ => none
  | _, _, _ => some (.resolveFail, g)

/-- The graph-store / attribute-store mutations `remove_person` performs, in
order. -/
inductive GraphEvent
  | reparentChild (childId : String)
  | removeMarriage (msha : Nat)
  | removePersonCommit (psha : Nat)
  | deleteYaml (personId : String)
deriving DecidableEq, Repr

/-- Step 2 of `remove_person`: remove the marriage commits one by one, stopping
at the first failure (`removeOk` abstracts whether `remove_commit_from_graph`
succeeds on a given commit; a failed removal performs no mutation). -/
def removeMarriageOps (removeOk : Nat → Bool) : List Nat → List GraphEvent × Bool
  | [] => ([], true)
  | m :: rest =>
    if removeOk m then
      let t := removeMarriageOps removeOk rest
      (GraphEvent.removeMarriage m :: t.1, t.2)
    else ([], false)

/-- Step 3 of `remove_person`: remove the person's own commit when its tag was
found. -/
def removePersonCommitOp (removeOk : Nat → Bool) :
    Option Nat → List GraphEvent × Bool
  | none => ([], true)
  | some c => if removeOk c then ([GraphEvent.removePersonCommit c], true) else ([], false)

/-- The mutation trace of `remove_person` after the user confirmed: step 1
reparents every dependent child to the graph root (only when there are both
marriages and children; a failing `_reparent_children_to_root` ends the
operation), step 2 removes the dependent marriage commits, step 3 removes the
person's commit, and step 4 deletes the person's YAML record — reached only
when every graph operation succeeded.  The second component reports success. -/
def remove_person_trace (reparentOk : Bool) (removeOk : Nat → Bool)
    (marriages : List Nat) (children : List String) (personCommit : Option Nat)
    (personId : String) : List GraphEvent × Bool :=
  if marriages.isEmpty = false ∧ children.isEmpty = false ∧ reparentOk = false then
    ([], false)
  else
    let evs1 :=
      if marriages.isEmpty = false ∧ children.isEmpty = false then
        children.map GraphEvent.reparentChild
      else []
    let t2 := removeMarriageOps removeOk marriages
    if t2.2 = false then (evs1 ++ t2.1, false)
    else
      let t3 := removePersonCommitOp removeOk personCommit
      if t3.2 = false then (evs1 ++ t2.1 ++ t3.1, false)
      else (evs1 ++ t2.1 ++ t3.1 ++ [GraphEvent.deleteYaml personId], true)

/-- Initialization of `_calculate_generations`: persons that are the target of no
child edge start at generation `0`, all others at the sentinel `-1` (ids
outside the store also map to `-1`; they are never read, every relax step
checks membership first). -/
def initGens (nodeIds : List String) (edges : List Edge) : String → Int :=
  fun x =>
    if x ∈ nodeIds ∧ ¬ ∃ e ∈ edges, e.etype = EdgeType.child ∧ e.dst = x then 0
    else -1

/-- Point update of a generation map. -/
def setGen (gens : String → Int) (pid : String) (v : Int) : String → Int :=
  fun x => if x = pid then v else gens x

/-- One child-edge relax step (pass 1 body): when parent and child are in the
store and the parent's generation is assigned (`≠ -1`), raise the child to
`parent + 1` if the child is unassigned or below it. -/
def childRelaxStep (nodeIds : List String) (st : (String → Int) × Bool)
    (e : Edge) : (String → Int) × Bool :=
  if e.etype = EdgeType.child ∧ e.src ∈ nodeIds ∧ e.dst ∈ nodeIds ∧
      st.1 e.src ≠ -1 then
    let newGen := st.1 e.src + 1
    if st.1 e.dst = -1 ∨ newGen > st.1 e.dst then
      (setGen st.1 e.dst newGen, true)
    else st
  else st

/-- One partner-leveling step (pass 2 body): raise both partners to the
maximum of their two generations (the maximum is computed before either
update). -/
def partnerLevelStep (nodeIds : List String) (st : (String → Int) × Bool)
    (e : Edge) : (String → Int) × Bool :=
  if e.etype = EdgeType.partner ∧ e.src ∈ nodeIds ∧ e.dst ∈ nodeIds then
    let maxGen := max (st.1 e.src) (st.1 e.dst)
    let st1 :=
      if st.1 e.src ≠ maxGen then (setGen st.1 e.src maxGen, true) else st
    if st1.1 e.dst ≠ maxGen then (setGen st1.1 e.dst maxGen, true) else st1
  else st

/-- One full pass of the generation loop: relax every child edge, then level
every partner pair; the boolean reports whether anything changed. -/
def generationPass (nodeIds : List String) (edges : List Edge)
    (gens : String → Int) : (String → Int) × Bool :=
  (edges.foldl (partnerLevelStep nodeIds)
    (edges.foldl (childRelaxStep nodeIds) (gens, false)))

/-- The generation loop: repeat passes until one changes nothing, or give up
(second component `true`, the abort-with-warning path) when the fuel — the
pass cap — is exhausted while changes are still being made. -/
def generationLoop (nodeIds : List String) (edges : List Edge) :
    Nat → (String → Int) → (String → Int) × Bool
  | 0, gens => (gens, true)
  | f + 1, gens =>
    let st := generationPass nodeIds edges gens
    if st.2 then generationLoop nodeIds edges f st.1 else (st.1, false)

/-- Model of `_calculate_generations`: initialize, then loop with the safety cap of
`2 × |persons|` passes.  Returns the final generation map and whether the
computation aborted at the cap. -/
def _calculate_generations (nodeIds : List String) (edges : List Edge) :
    (String → Int) × Bool :=
  generationLoop nodeIds edges (2 * nodeIds.length) (initGens nodeIds edges)

/-- Model of `export_to_json`, restricted to what it writes for each node: the node id
together with the generation `_calculate_generations` left in the node
dictionary (written to the JSON output unchanged). -/
def export_nodes (nodeIds : List String) (edges : List Edge) :
    List (String × Int) :=
  let gens := (_calculate_generations nodeIds edges).1
  nodeIds.map (fun nid => (nid, gens nid))

/-! ### Concrete fixtures used by witnesses and counterexamples -/

/-- Interactive-selection stub: always pick the first candidate. -/
def pickW : List PersonRec → Nat := fun _ => 0

/-- A sample person. -/
def personA : PersonRec :=
  { id := "aaaaaaaa", first_name := "Alice", last_name := "Smith", name := "Alice Smith" }

/-- A sample person. -/
def personB : PersonRec :=
  { id := "bbbbbbbb", first_name := "Bob", last_name := "Jones", name := "Bob Jones" }

/-- A sample person. -/
def personC : PersonRec :=
  { id := "cccccccc", first_name := "Carol", last_name := "Reed", name := "Carol Reed" }

/-- A sample attribute store with three persons. -/
def dataW : List PersonRec := [personA, personB, personC]

/-- A sample graph: root commit plus one tagged person commit per person. -/
def gW : GState :=
  { commits := [{ sha := 0, parents := [] }, { sha := 1, parents := [0] },
                { sha := 2, parents := [0] }, { sha := 3, parents := [0] }],
    tags := [("GRAPH_ROOT", 0), ("aaaaaaaa", 1), ("bbbbbbbb", 2), ("cccccccc", 3)],
    headSha := 3 }

/-- The sample graph after `marry(A, B)`: marriage commit `4` with parents the
two person commits, tagged in `(A, B)` order. -/
def gAB : GState :=
  { commits := gW.commits ++ [{ sha := 4, parents := [1, 2] }],
    tags := gW.tags ++ [("marriage_aaaaaaaa_bbbbbbbb", 4)],
    headSha := 4 }

/-! ### C9 — the marriage pointer name and its lookup -/

/-- C9 counterexample: the pointer name depends on the argument order.
`marry(A, B)` tags the union `marriage_aaaaaaaa_bbbbbbbb`, while `marry(B, A)`
on the same state tags it `marriage_bbbbbbbb_aaaaaaaa`: the two runs produce
different tag tables, so the pointer name is not order-independent. -/
theorem c9_counterexample :
    marriageTagName "aaaaaaaa" "bbbbbbbb" ≠ marriageTagName "bbbbbbbb" "aaaaaaaa" ∧
    (marry dataW gW pickW true "aaaaaaaa" "bbbbbbbb").map (fun r => r.2.tags) ≠
      (marry dataW gW pickW true "bbbbbbbb" "aaaaaaaa").map (fun r => r.2.tags) := by
  decide

/-- C9 (amended): the pointer name of a Union records the argument order of
`marry`, but lookup is order-independent: `_find_marriage_commit` succeeds for
`(a, b)` exactly when it succeeds for `(b, a)`, and when at most one of the two
order-variant tags exists the two lookups return the same commit. -/
theorem c9_lookup_order_independent (g : GState) (a b : String) :
    ((_find_marriage_commit g a b).isSome = (_find_marriage_commit g b a).isSome) ∧
    (tagLookup g (marriageTagName a b) = none ∨
        tagLookup g (marriageTagName b a) = none →
      _find_marriage_commit g a b = _find_marriage_commit g b a) := by
  constructor
  · unfold _find_marriage_commit
    cases h1 : tagLookup g (marriageTagName a b) <;>
      cases h2 : tagLookup g (marriageTagName b a) <;> simp [h1, h2]
  · intro h
    unfold _find_marriage_commit
    rcases h with h | h <;>
      cases h1 : tagLookup g (marriageTagName a b) <;>
        cases h2 : tagLookup g (marriageTagName b a) <;>
          simp_all

/-- Witness for C9: on the sample state the union of `(A, B)` is found under
both argument orders and the two lookups agree. -/
theorem c9_witness :
    _find_marriage_commit gAB "aaaaaaaa" "bbbbbbbb" =
      _find_marriage_commit gAB "bbbbbbbb" "aaaaaaaa" :=
  (c9_lookup_order_independent gAB "aaaaaaaa" "bbbbbbbb").2 (Or.inr (by decide))

/-! ### C8 — identifier resolution -/

/-- If filtering a list yields exactly one element, `find?` returns it. -/
theorem find?_of_filter_singleton {α : Type} {q : α → Bool} :
    ∀ {l : List α} {p : α}, l.filter q = [p] → l.find? q = some p := by
  intro l
  induction l with
  | nil => intro p h; simp at h
  | cons x xs ih =>
    intro p h
    cases hq : q x with
    | false =>
      rw [List.filter_cons_of_neg (by simp [hq])] at h
      rw [List.find?_cons_of_neg _ (by simp [hq])]
      exact ih h
    | true =>
      rw [List.filter_cons_of_pos (by simp [hq])] at h
      rw [List.find?_cons_of_pos _ (by simp [hq])]
      exact congrArg some (List.cons.injEq .. ▸ h).1

/-- C8 counterexample: the empty token is a prefix of exactly one person's id
in a one-person store, yet the resolver returns `None` (the Python
`if not input_str: return None` guard), not that person's id. -/
theorem c8_counterexample :
    (List.filter (fun q => strStartsWith q.id "") [personA]).length = 1 ∧
    _resolve_person_id_input [personA] gW pickW "" = none := by
  decide

/-- C8 (amended): for a nonempty token, (1) if the token is a prefix of exactly
one person's id (in particular if it equals that id and no other id extends
it), the resolver returns that person's full id; (2) if no record matches by id
or name but a pointer with exactly that name exists in the graph store, the
resolver returns the token itself; (3) if neither an id match, a name match,
nor a pointer exists, the resolver fails with `none` (it never mutates: it is a
pure function of the two stores). -/
theorem c8_resolver_amended (data : List PersonRec) (g : GState)
    (pick : List PersonRec → Nat) (input : String) :
    (∀ p : PersonRec, input.isEmpty = false →
        data.filter (fun q => strStartsWith q.id input) = [p] →
        _resolve_person_id_input data g pick input = some p.id) ∧
    (input.isEmpty = false →
        _get_person_name_by_id data input = none →
        _get_person_id_by_name data input = [] →
        (tagLookup g input).isSome = true →
        _resolve_person_id_input data g pick input = some input) ∧
    (_get_person_name_by_id data input = none →
        _get_person_id_by_name data input = [] →
        tagLookup g input = none →
        _resolve_person_id_input data g pick input = none) := by
  refine ⟨?_, ?_, ?_⟩
  · intro p hne hfilter
    have hfind : _get_person_name_by_id data input = some p :=
      find?_of_filter_singleton hfilter
    unfold _resolve_person_id_input
    rw [hne]
    simp only [Bool.false_eq_true, if_false, hfind]
  · intro hne hid hname htag
    unfold _resolve_person_id_input
    rw [hne]
    simp only [Bool.false_eq_true, if_false, hid]
    simp [hname, htag]
  · intro hid hname htag
    unfold _resolve_person_id_input
    cases hne : input.isEmpty with
    | true => simp
    | false => simp [hid, hname, htag]

/-- Witness for C8: on the sample stores, an exact id resolves to itself, a
pointer-only name resolves to itself, and an unknown token fails. -/
theorem c8_witness :
    _resolve_person_id_input dataW gW pickW "bbbbbbbb" = some "bbbbbbbb" ∧
    _resolve_person_id_input dataW gW pickW "GRAPH_ROOT" = some "GRAPH_ROOT" ∧
    _resolve_person_id_input dataW gW pickW "zzz" = none :=
  ⟨(c8_resolver_amended dataW gW pickW "bbbbbbbb").1 personB (by decide) (by decide),
   (c8_resolver_amended dataW gW pickW "GRAPH_ROOT").2.1 (by decide) (by decide)
     (by decide) (by decide),
   (c8_resolver_amended dataW gW pickW "zzz").2.2 (by decide) (by decide) (by decide)⟩

/-! ### C7 — the ancestor closure -/

/-- A one-node cyclic parents map: `"a"` is its own parent. -/
def cycMapC7 : String → List String := fun x => if x == "a" then ["a"] else []

/-- On the cyclic map, the recursion of `_get_ancestors` exceeds every depth. -/
theorem getAncestorsF_cyc_none : ∀ f, getAncestorsF cycMapC7 f "a" = none := by
  intro f
  induction f with
  | zero => rfl
  | succ f ih =>
    show (cycMapC7 "a").foldr _ (some ∅) = none
    have : cycMapC7 "a" = ["a"] := rfl
    rw [this]
    simp only [List.foldr_cons, List.foldr_nil, ih]

/-- C7 counterexample: `_get_ancestors` is not total.  It has no memoization
and no depth bound, so on the cyclic parents map `{"a": ["a"]}` its recursion
exceeds every finite depth (in Python: unbounded recursion), refuting
termination for every person id and parents map. -/
theorem c7_counterexample :
    ¬ ∃ f, (getAncestorsF cycMapC7 f "a").isSome = true := by
  rintro ⟨f, hf⟩
  rw [getAncestorsF_cyc_none f] at hf
  exact Bool.false_ne_true hf

/-- C7 (amended): on a well-founded parents map — one admitting a rank
function that strictly decreases along parent edges, which holds for every
acyclic map — `_get_ancestors` terminates within recursion depth
`rank(a)` and returns exactly the set of ids reachable from `a` through one or
more parent edges. -/
theorem c7_acyclic_terminates (pm : String → List String) (rank : String → Nat)
    (hr : ∀ x p, p ∈ pm x → rank p < rank x) :
    ∀ (f : Nat) (a : String), rank a < f →
      ∃ s, getAncestorsF pm f a = some s ∧
        ∀ x, x ∈ s ↔ Relation.TransGen (fun u v => v ∈ pm u) a x := by
  intro f
  induction f with
  | zero => intro a ha; exact absurd ha (Nat.not_lt_zero _)
  | succ f ih =>
    intro a ha
    have hfold : ∀ l : List String, (∀ p ∈ l, p ∈ pm a) →
        ∃ s, (l.foldr (fun p acc =>
            match getAncestorsF pm f p, acc with
            | some s1, some s2 => some (insert p (s1 ∪ s2))
            | _, _ => none) (some ∅)) = some s ∧
          ∀ x, x ∈ s ↔ ∃ p ∈ l, x = p ∨ Relation.TransGen (fun u v => v ∈ pm u) p x := by
      intro l
      induction l with
      | nil => exact fun _ => ⟨∅, rfl, by simp⟩
      | cons p rest ihl =>
        intro hmem
        obtain ⟨s2, hs2, hspec2⟩ := ihl (fun q hq => hmem q (List.mem_cons_of_mem _ hq))
        have hp : p ∈ pm a := hmem p (List.mem_cons_self _ _)
        have hrankp : rank p < f :=
          lt_of_lt_of_le (hr a p hp) (Nat.lt_succ_iff.mp ha)
        obtain ⟨s1, hs1, hspec1⟩ := ih p hrankp
        refine ⟨insert p (s1 ∪ s2), ?_, ?_⟩
        · simp only [List.foldr_cons, hs2, hs1]
        · intro x
          simp only [Finset.mem_insert, Finset.mem_union, hspec1 x, hspec2 x,
            List.mem_cons]
          constructor
          · rintro (hxp | h | ⟨q, hq, hx⟩)
            · exact ⟨p, Or.inl rfl, Or.inl hxp⟩
            · exact ⟨p, Or.inl rfl, Or.inr h⟩
            · exact ⟨q, Or.inr hq, hx⟩
          · rintro ⟨q, (hqp | hq), hx⟩
            · rcases hx with hxq | h
              · exact Or.inl (hxq.trans hqp)
              · exact Or.inr (Or.inl (hqp ▸ h))
            · exact Or.inr (Or.inr ⟨q, hq, hx⟩)
    obtain ⟨s, hs, hspec⟩ := hfold (pm a) (fun p hp => hp)
    refine ⟨s, hs, fun x => ?_⟩
    rw [hspec x]
    constructor
    · rintro ⟨p, hp, (rfl | htr)⟩
      · exact Relation.TransGen.single hp
      · exact Relation.TransGen.head hp htr
    · intro h
      obtain ⟨b, hab, hbx⟩ := Relation.TransGen.head'_iff.mp h
      rcases Relation.reflTransGen_iff_eq_or_transGen.mp hbx with heq | htr
      · exact ⟨b, hab, Or.inl heq⟩
      · exact ⟨b, hab, Or.inr htr⟩

/-- An acyclic two-person parents map: `"b"`'s parent is `"a"`. -/
def pmW : String → List String := fun x => if x == "b" then ["a"] else []

/-- A rank function witnessing that `pmW` is well-founded. -/
def rankW : String → Nat := fun x => if x == "b" then 1 else 0

/-- Witness for C7 (amended): on the acyclic sample map the ancestor closure
of `"b"` terminates. -/
theorem c7_witness : (getAncestorsF pmW 2 "b").isSome = true := by
  obtain ⟨s, hs, _⟩ := c7_acyclic_terminates pmW rankW
    (by
      intro x p hp
      simp only [pmW] at hp
      split at hp
      · next hx =>
        simp only [List.mem_singleton] at hp
        subst hp
        have hxb : x = "b" := by simpa using hx
        subst hxb
        decide
      · simp at hp)
    2 "b" (by decide)
  rw [hs]
  rfl

/-! ### C1 — the mutation order of remove_person -/

/-- Every event emitted by step 2 is a marriage-commit removal. -/
theorem removeMarriageOps_shape (removeOk : Nat → Bool) :
    ∀ ms : List Nat, ∀ ev ∈ (removeMarriageOps removeOk ms).1,
      ∃ m, ev = GraphEvent.removeMarriage m := by
  intro ms
  induction ms with
  | nil => intro ev hev; simp [removeMarriageOps] at hev
  | cons m rest ih =>
    intro ev hev
    rw [removeMarriageOps] at hev
    by_cases hok : removeOk m
    · rw [if_pos hok] at hev
      rcases List.mem_cons.mp hev with rfl | hmem
      · exact ⟨m, rfl⟩
      · exact ih ev hmem
    · rw [if_neg hok] at hev
      simp at hev

/-- When step 2 succeeds it removed exactly the listed marriage commits, in
list order. -/
theorem removeMarriageOps_ok (removeOk : Nat → Bool) :
    ∀ ms : List Nat, (removeMarriageOps removeOk ms).2 = true →
      (removeMarriageOps removeOk ms).1 = ms.map GraphEvent.removeMarriage := by
  intro ms
  induction ms with
  | nil => intro _; rfl
  | cons m rest ih =>
    intro hok
    rw [removeMarriageOps] at hok ⊢
    by_cases h : removeOk m
    · rw [if_pos h] at hok ⊢
      simp only [List.map_cons, List.cons.injEq]
      exact ⟨trivial, ih hok⟩
    · rw [if_neg h] at hok
      simp at hok

/-- C1: the trace of `remove_person` decomposes into four phases in this fixed
order — child reparentings, then marriage-commit removals, then the person's
commit removal, then the YAML deletion; the YAML record is deleted exactly in
the traces whose graph phase fully succeeded (and then every dependent child
was reparented before any marriage commit was removed, and every marriage
commit was removed before the person commit).  In particular no marriage
commit is removed while an event that reparents a child away from it is still
pending, and the person's commit outlives every marriage commit that points at
it. -/
theorem c1_remove_person_order (reparentOk : Bool) (removeOk : Nat → Bool)
    (marriages : List Nat) (children : List String) (personCommit : Option Nat)
    (personId : String) :
    (∃ l1 l2 l3 l4,
      (remove_person_trace reparentOk removeOk marriages children personCommit
          personId).1 = l1 ++ l2 ++ l3 ++ l4 ∧
      (∀ ev ∈ l1, ∃ c, ev = GraphEvent.reparentChild c) ∧
      (∀ ev ∈ l2, ∃ m, ev = GraphEvent.removeMarriage m) ∧
      (∀ ev ∈ l3, ∃ p, ev = GraphEvent.removePersonCommit p) ∧
      (∀ ev ∈ l4, ev = GraphEvent.deleteYaml personId)) ∧
    (GraphEvent.deleteYaml personId ∈
        (remove_person_trace reparentOk removeOk marriages children personCommit
          personId).1 →
      (remove_person_trace reparentOk removeOk marriages children personCommit
          personId).2 = true) ∧
    ((remove_person_trace reparentOk removeOk marriages children personCommit
          personId).2 = true →
      (remove_person_trace reparentOk removeOk marriages children personCommit
          personId).1 =
        (if marriages.isEmpty = false ∧ children.isEmpty = false then
            children.map GraphEvent.reparentChild
          else []) ++
        marriages.map GraphEvent.removeMarriage ++
        (personCommit.map GraphEvent.removePersonCommit).toList ++
        [GraphEvent.deleteYaml personId]) := by
  have hshape1 : ∀ ev ∈ (if marriages.isEmpty = false ∧ children.isEmpty = false then
      children.map GraphEvent.reparentChild else []),
      ∃ c, ev = GraphEvent.reparentChild c := by
    intro ev hev
    split at hev
    · obtain ⟨c, _, rfl⟩ := List.mem_map.mp hev
      exact ⟨c, rfl⟩
    · simp at hev
  have hshape3 : ∀ ev ∈ (removePersonCommitOp removeOk personCommit).1,
      ∃ p, ev = GraphEvent.removePersonCommit p := by
    intro ev hev
    cases personCommit with
    | none => simp [removePersonCommitOp] at hev
    | some c =>
      rw [removePersonCommitOp] at hev
      by_cases h : removeOk c
      · rw [if_pos h] at hev
        simp at hev
        exact ⟨c, hev⟩
      · rw [if_neg h] at hev
        simp at hev
  refine ⟨?_, ?_, ?_⟩
  · simp only [remove_person_trace]
    by_cases h0 : marriages.isEmpty = false ∧ children.isEmpty = false ∧
        reparentOk = false
    · rw [if_pos h0]
      exact ⟨[], [], [], [], by simp, by simp, by simp, by simp, by simp⟩
    · rw [if_neg h0]
      by_cases h2 : (removeMarriageOps removeOk marriages).2 = false
      · rw [if_pos h2]
        refine ⟨_, _, [], [], by simp, hshape1,
          removeMarriageOps_shape removeOk marriages, by simp, by simp⟩
      · rw [if_neg h2]
        by_cases h3 : (removePersonCommitOp removeOk personCommit).2 = false
        · rw [if_pos h3]
          refine ⟨_, _, _, [], by simp, hshape1,
            removeMarriageOps_shape removeOk marriages, hshape3, by simp⟩
        · rw [if_neg h3]
          refine ⟨_, _, _, [GraphEvent.deleteYaml personId], by simp, hshape1,
            removeMarriageOps_shape removeOk marriages, hshape3, by simp⟩
  · intro hmem
    simp only [remove_person_trace] at hmem ⊢
    by_cases h0 : marriages.isEmpty = false ∧ children.isEmpty = false ∧
        reparentOk = false
    · rw [if_pos h0] at hmem
      simp at hmem
    · rw [if_neg h0] at hmem ⊢
      by_cases h2 : (removeMarriageOps removeOk marriages).2 = false
      · rw [if_pos h2] at hmem
        simp only [List.mem_append] at hmem
        rcases hmem with hmem | hmem
        · obtain ⟨c, hc⟩ := hshape1 _ hmem
          simp at hc
        · obtain ⟨m, hm⟩ := removeMarriageOps_shape removeOk marriages _ hmem
          simp at hm
      · rw [if_neg h2] at hmem ⊢
        by_cases h3 : (removePersonCommitOp removeOk personCommit).2 = false
        · rw [if_pos h3] at hmem
          simp only [List.mem_append] at hmem
          rcases hmem with (hmem | hmem) | hmem
          · obtain ⟨c, hc⟩ := hshape1 _ hmem
            simp at hc
          · obtain ⟨m, hm⟩ := removeMarriageOps_shape removeOk marriages _ hmem
            simp at hm
          · obtain ⟨p, hp⟩ := hshape3 _ hmem
            simp at hp
        · rw [if_neg h3]
  · intro hok
    simp only [remove_person_trace] at hok ⊢
    by_cases h0 : marriages.isEmpty = false ∧ children.isEmpty = false ∧
        reparentOk = false
    · rw [if_pos h0] at hok
      simp at hok
    · rw [if_neg h0] at hok ⊢
      by_cases h2 : (removeMarriageOps removeOk marriages).2 = false
      · rw [if_pos h2] at hok
        simp at hok
      · rw [if_neg h2] at hok ⊢
        by_cases h3 : (removePersonCommitOp removeOk personCommit).2 = false
        · rw [if_pos h3] at hok
          simp at hok
        · rw [if_neg h3] at hok ⊢
          have hm2 : (removeMarriageOps removeOk marriages).1 =
              marriages.map GraphEvent.removeMarriage :=
            removeMarriageOps_ok removeOk marriages (by
              cases h : (removeMarriageOps removeOk marriages).2
              · exact absurd h h2
              · rfl)
          have hm3 : (removePersonCommitOp removeOk personCommit).1 =
              (personCommit.map GraphEvent.removePersonCommit).toList := by
            cases personCommit with
            | none => rfl
            | some c =>
              rw [removePersonCommitOp] at h3 ⊢
              by_cases h : removeOk c
              · rw [if_pos h]
                rfl
              · rw [if_neg h] at h3
                exact absurd rfl h3
          rw [hm2, hm3]

/-- Witness for C1: with one marriage, one child and a found person commit,
the successful trace is reparent → remove marriage → remove person commit →
delete YAML. -/
theorem c1_witness :
    (remove_person_trace true (fun _ => true) [10] ["c1"] (some 5) "p").1 =
      [GraphEvent.reparentChild "c1", GraphEvent.removeMarriage 10,
       GraphEvent.removePersonCommit 5, GraphEvent.deleteYaml "p"] := by
  have h := (c1_remove_person_order true (fun _ => true) [10] ["c1"] (some 5) "p").2.2
    (by decide)
  exact h.trans (by decide)

/-! ### C2 — marry guards and union uniqueness -/

/-- The number of marriage tags stored for the unordered pair `(a, b)` (either
argument order). -/
def unionTagCount (g : GState) (a b : String) : Nat :=
  (g.tags.filter (fun t =>
    t.1 == marriageTagName a b || t.1 == marriageTagName b a)).length

/-- A failed pair lookup means neither order-variant tag exists. -/
theorem find_marriage_none_iff (g : GState) (id1 id2 : String) :
    _find_marriage_commit g id1 id2 = none ↔
      tagLookup g (marriageTagName id1 id2) = none ∧
      tagLookup g (marriageTagName id2 id1) = none := by
  unfold _find_marriage_commit
  cases h1 : tagLookup g (marriageTagName id1 id2) <;>
    cases h2 : tagLookup g (marriageTagName id2 id1) <;> simp

/-- C2: `marry` rejects a self-marriage with the state unchanged when both
inputs resolve to the same id; with the ancestor-warning confirmation answered
affirmatively it rejects an existing marriage (either tag order) with
`AlreadyMarried` and the state unchanged; and on every terminating run it
preserves "at most one union tag for the resolved pair". -/
theorem c2_marry_guards (data : List PersonRec) (g : GState)
    (pick : List PersonRec → Nat) (male female : String) :
    (∀ (conf : Bool) (i : String),
      _resolve_person_id_input data g pick male = some i →
      _resolve_person_id_input data g pick female = some i →
      marry data g pick conf male female = some (.selfMarriage, g)) ∧
    (∀ (m f : String) (s1 s2 : Finset String),
      _resolve_person_id_input data g pick male = some m →
      _resolve_person_id_input data g pick female = some f →
      m ≠ f →
      getAncestorsF (parentsMapOf g data) (data.length + 1) m = some s1 →
      getAncestorsF (parentsMapOf g data) (data.length + 1) f = some s2 →
      (_find_marriage_commit g m f).isSome = true →
      marry data g pick true male female = some (.alreadyMarried, g)) ∧
    (∀ (conf : Bool) (r : MarryRes) (g2 : GState) (m f : String),
      _resolve_person_id_input data g pick male = some m →
      _resolve_person_id_input data g pick female = some f →
      marry data g pick conf male female = some (r, g2) →
      unionTagCount g m f ≤ 1 → unionTagCount g2 m f ≤ 1) := by
  refine ⟨?_, ?_, ?_⟩
  · intro conf i hm hf
    unfold marry
    rw [hm, hf]
    simp
  · intro m f s1 s2 hm hf hne hs1 hs2 hfind
    unfold marry
    rw [hm, hf]
    simp only [if_neg hne, hs1, hs2, hfind]
    simp
  · intro conf r g2 m f hm hf heq hle
    unfold marry at heq
    rw [hm, hf] at heq
    simp only [] at heq
    by_cases hmf : m = f
    · rw [if_pos hmf] at heq
      simp only [Option.some.injEq, Prod.mk.injEq] at heq
      rw [← heq.2]
      exact hle
    · rw [if_neg hmf] at heq
      cases hs1 : getAncestorsF (parentsMapOf g data) (data.length + 1) m with
      | none =>
        rw [hs1] at heq
        simp at heq
      | some s1 =>
        rw [hs1] at heq
        cases hs2 : getAncestorsF (parentsMapOf g data) (data.length + 1) f with
        | none =>
          rw [hs2] at heq
          simp at heq
        | some s2 =>
          rw [hs2] at heq
          simp only [] at heq
          by_cases habort : (m ∈ s2 ∨ f ∈ s1) ∧ conf = false
          · rw [if_pos habort] at heq
            simp only [Option.some.injEq, Prod.mk.injEq] at heq
            rw [← heq.2]
            exact hle
          · rw [if_neg habort] at heq
            by_cases hfind : (_find_marriage_commit g m f).isSome = true
            · rw [if_pos hfind] at heq
              simp only [Option.some.injEq, Prod.mk.injEq] at heq
              rw [← heq.2]
              exact hle
            · rw [if_neg hfind] at heq
              have hnone : _find_marriage_commit g m f = none := by
                cases h : _find_marriage_commit g m f
                · rfl
                · rw [h] at hfind; simp at hfind
              obtain ⟨hn1, hn2⟩ := (find_marriage_none_iff g m f).mp hnone
              cases hmc : tagLookup g (_get_short_id m) with
              | none =>
                rw [hmc] at heq
                cases hfc : tagLookup g (_get_short_id f) <;> rw [hfc] at heq <;>
                  simp only [Option.some.injEq, Prod.mk.injEq] at heq <;>
                  rw [← heq.2] <;> exact hle
              | some mc =>
                rw [hmc] at heq
                cases hfc : tagLookup g (_get_short_id f) with
                | none =>
                  rw [hfc] at heq
                  simp only [Option.some.injEq, Prod.mk.injEq] at heq
                  rw [← heq.2]
                  exact hle
                | some fc =>
                  rw [hfc] at heq
                  simp only [Option.some.injEq, Prod.mk.injEq] at heq
                  rw [← heq.2]
                  unfold unionTagCount at hle ⊢
                  have hempty : (g.tags.filter (fun t =>
                      t.1 == marriageTagName m f || t.1 == marriageTagName f m)) = [] := by
                    rw [List.filter_eq_nil_iff]
                    intro t ht
                    have h1 := List.find?_eq_none.mp
                      ((Option.map_eq_none).mp hn1) t ht
                    have h2 := List.find?_eq_none.mp
                      ((Option.map_eq_none).mp hn2) t ht
                    simp only [Bool.or_eq_true, not_or]
                    exact ⟨by simpa using h1, by simpa using h2⟩
                  simp only [List.filter_append, hempty, List.nil_append]
                  simp [marriageTagName]

/-- Witness for C2: a self-marriage is rejected, re-marrying an existing pair
is rejected with `AlreadyMarried`, and a successful marriage leaves at most one
union tag for the pair. -/
theorem c2_witness :
    marry dataW gW pickW false "aaaaaaaa" "aaaaaaaa" = some (.selfMarriage, gW) ∧
    marry dataW gAB pickW true "aaaaaaaa" "bbbbbbbb" = some (.alreadyMarried, gAB) ∧
    unionTagCount gAB "aaaaaaaa" "bbbbbbbb" ≤ 1 := by
  refine ⟨?_, ?_, ?_⟩
  · exact (c2_marry_guards dataW gW pickW "aaaaaaaa" "aaaaaaaa").1 false "aaaaaaaa"
      (by decide) (by decide)
  · exact (c2_marry_guards dataW gAB pickW "aaaaaaaa" "bbbbbbbb").2.1 "aaaaaaaa"
      "bbbbbbbb" ∅ ∅ (by decide) (by decide) (by decide) (by decide) (by decide)
      (by decide)
  · exact (c2_marry_guards dataW gW pickW "aaaaaaaa" "bbbbbbbb").2.2 true .ok gAB
      "aaaaaaaa" "bbbbbbbb" (by decide) (by decide) (by decide) (by decide)

/-! ### C5 — unmarry and leaf-commit removal -/

/-- C5: `unmarry` fails with the has-children error and removes nothing when
some person's node has the union commit as parent; when no such child exists
and the underlying removal succeeds, the union commit is gone from the store;
and `remove_commit` itself refuses any commit that still has child commits
(raising has-children with the state intact) and, on success, moves `HEAD` to
the commit's first parent when `HEAD` pointed at the removed commit. -/
theorem c5_unmarry_guards (data : List PersonRec) (g : GState)
    (pick : List PersonRec → Nat) (person1 person2 : String) :
    (∀ (r1 r2 : String) (m : Nat),
      _resolve_person_id_input data g pick person1 = some r1 →
      _resolve_person_id_input data g pick person2 = some r2 →
      _find_marriage_commit g r1 r2 = some m →
      (_find_children_from_marriage g data m).isEmpty = false →
      unmarry data g pick person1 person2 = (.hasChildrenErr, g)) ∧
    (∀ (r1 r2 : String) (m : Nat) (g2 : GState),
      _resolve_person_id_input data g pick person1 = some r1 →
      _resolve_person_id_input data g pick person2 = some r2 →
      _find_marriage_commit g r1 r2 = some m →
      (_find_children_from_marriage g data m).isEmpty = true →
      remove_commit g m = (.ok, g2) →
      unmarry data g pick person1 person2 = (.ok, g2) ∧
        ∀ c ∈ g2.commits, c.sha ≠ m) ∧
    (∀ (h : GState) (sha : Nat) (c : Commit), c ∈ h.commits → c.sha = sha →
      (∃ d ∈ h.commits, sha ∈ d.parents) →
      remove_commit h sha = (.hasChildren, h)) ∧
    (∀ (h : GState) (sha : Nat) (c : Commit) (p : Nat) (ps : List Nat),
      h.commits.find? (fun d => d.sha == sha) = some c →
      (h.commits.filter (fun d => sha ∈ d.parents)).isEmpty = true →
      h.headSha = sha → c.parents = p :: ps →
      remove_commit h sha =
        (.ok, { commits := h.commits.filter (fun d => d.sha ≠ sha),
                tags := h.tags.filter (fun t => t.2 ≠ sha),
                headSha := p })) := by
  have hrm : ∀ (h : GState) (sha : Nat) (g2 : GState),
      remove_commit h sha = (.ok, g2) → ∀ c ∈ g2.commits, c.sha ≠ sha := by
    intro h sha g2 heq c hc
    unfold remove_commit at heq
    cases hfind : h.commits.find? (fun d => d.sha == sha) with
    | none =>
      rw [hfind] at heq
      simp at heq
    | some c0 =>
      rw [hfind] at heq
      simp only [] at heq
      by_cases hch : (h.commits.filter (fun d => sha ∈ d.parents)).isEmpty = false
      · rw [if_pos hch] at heq
        simp at heq
      · rw [if_neg hch] at heq
        by_cases hhead : h.headSha == sha
        · rw [if_pos hhead] at heq
          cases hp : c0.parents with
          | nil =>
            rw [hp] at heq
            simp at heq
          | cons p ps =>
            rw [hp] at heq
            simp only [Prod.mk.injEq] at heq
            rw [← heq.2] at hc
            have := (List.mem_filter.mp hc).2
            simpa using this
        · rw [if_neg hhead] at heq
          simp only [Prod.mk.injEq] at heq
          rw [← heq.2] at hc
          have := (List.mem_filter.mp hc).2
          simpa using this
  refine ⟨?_, ?_, ?_, ?_⟩
  · intro r1 r2 m hr1 hr2 hfind hkids
    unfold unmarry
    rw [hr1, hr2]
    simp only [hfind, hkids]
    simp
  · intro r1 r2 m g2 hr1 hr2 hfind hkids hrem
    constructor
    · unfold unmarry
      rw [hr1, hr2]
      simp only [hfind, hkids, hrem]
      simp
    · exact hrm g m g2 hrem
  · intro h sha c hc hsha hex
    unfold remove_commit
    cases hfind : h.commits.find? (fun d => d.sha == sha) with
    | none =>
      exfalso
      have := List.find?_eq_none.mp hfind c hc
      simp [hsha] at this
    | some c0 =>
      simp only []
      have hne : (h.commits.filter (fun d => sha ∈ d.parents)).isEmpty = false := by
        obtain ⟨d, hd, hdp⟩ := hex
        have : d ∈ h.commits.filter (fun d => sha ∈ d.parents) :=
          List.mem_filter.mpr ⟨hd, by simpa using hdp⟩
        cases hemp : (h.commits.filter (fun d => sha ∈ d.parents)) with
        | nil => rw [hemp] at this; simp at this
        | cons a l => rfl
      rw [if_pos hne]
  · intro h sha c p ps hfind hempty hhead hpar
    unfold remove_commit
    rw [hfind]
    simp only []
    rw [if_neg (by rw [hempty]; simp)]
    rw [if_pos (by simpa using hhead), hpar]

/-- The sample graph after `marry(A, B)` and `add_child(A, B, C)`: person C's
commit now has the marriage commit as parent. -/
def gABC : GState :=
  { commits := [{ sha := 0, parents := [] }, { sha := 1, parents := [0] },
                { sha := 2, parents := [0] }, { sha := 3, parents := [4] },
                { sha := 4, parents := [1, 2] }],
    tags := gAB.tags,
    headSha := 3 }

/-- Witness for C5: unmarrying a pair with a child fails with the has-children
error and changes nothing; unmarrying a childless pair removes the marriage
commit and moves `HEAD` from the removed commit to its first parent; and
`remove_commit` refuses the marriage commit while the child still points at it. -/
theorem c5_witness :
    unmarry dataW gABC pickW "aaaaaaaa" "bbbbbbbb" = (.hasChildrenErr, gABC) ∧
    unmarry dataW gAB pickW "aaaaaaaa" "bbbbbbbb" =
      (.ok, { commits := gW.commits, tags := gW.tags, headSha := 1 }) ∧
    remove_commit gABC 4 = (.hasChildren, gABC) ∧
    remove_commit gAB 4 =
      (.ok, { commits := gAB.commits.filter (fun d => d.sha ≠ 4),
              tags := gAB.tags.filter (fun t => t.2 ≠ 4),
              headSha := 1 }) :=
  ⟨(c5_unmarry_guards dataW gABC pickW "aaaaaaaa" "bbbbbbbb").1 "aaaaaaaa" "bbbbbbbb" 4
      (by decide) (by decide) (by decide) (by decide),
   ((c5_unmarry_guards dataW gAB pickW "aaaaaaaa" "bbbbbbbb").2.1 "aaaaaaaa" "bbbbbbbb"
      4 { commits := gW.commits, tags := gW.tags, headSha := 1 }
      (by decide) (by decide) (by decide) (by decide) (by decide)).1,
   (c5_unmarry_guards dataW gABC pickW "aaaaaaaa" "bbbbbbbb").2.2.1 gABC 4
      { sha := 4, parents := [1, 2] } (by decide) (by decide)
      ⟨{ sha := 3, parents := [4] }, by decide, by decide⟩,
   (c5_unmarry_guards dataW gAB pickW "aaaaaaaa" "bbbbbbbb").2.2.2 gAB 4
      { sha := 4, parents := [1, 2] } 1 [2] (by decide) (by decide) (by decide)
      (by decide)⟩

/-! ### C3 — change_commit_parent never creates a cycle -/

/-- The parent-edge relation of an adjacency function: one step from child to
parent. -/
def parEdge (par : Nat → List Nat) (x y : Nat) : Prop := y ∈ par x

/-- The adjacency after grafting: `t`'s parents become exactly `[p]`. -/
def graftPar (par : Nat → List Nat) (t p : Nat) : Nat → List Nat :=
  fun x => if x = t then [p] else par x

/-- Soundness of the bounded ancestry check. -/
theorem isAncB_sound (par : Nat → List Nat) :
    ∀ (f a b : Nat), isAncB par f a b = true →
      Relation.ReflTransGen (parEdge par) a b := by
  intro f
  induction f with
  | zero => intro a b h; simp [isAncB] at h
  | succ f ih =>
    intro a b h
    rw [isAncB] at h
    rcases Bool.or_eq_true_iff.mp h with h | h
    · have : a = b := by simpa using h
      exact this ▸ Relation.ReflTransGen.refl
    · obtain ⟨q, hq, hrec⟩ := List.any_eq_true.mp h
      exact Relation.ReflTransGen.head hq (ih q b hrec)

/-- Completeness of the bounded ancestry check when parent shas strictly
precede child shas: fuel `a + 1` suffices to find every ancestor of `a`. -/
theorem isAncB_complete {par : Nat → List Nat}
    (hlt : ∀ x q, q ∈ par x → q < x) :
    ∀ (a b : Nat), Relation.ReflTransGen (parEdge par) a b →
      ∀ f, a < f → isAncB par f a b = true := by
  intro a b h
  induction h using Relation.ReflTransGen.head_induction_on with
  | refl =>
    intro f hf
    obtain ⟨f', rfl⟩ : ∃ f', f = f' + 1 := ⟨f - 1, by omega⟩
    rw [isAncB]
    simp
  | @head x c h' hrest ih =>
    intro f hf
    obtain ⟨f', rfl⟩ : ∃ f', f = f' + 1 := ⟨f - 1, by omega⟩
    rw [isAncB]
    apply Bool.or_eq_true_iff.mpr
    right
    apply List.any_eq_true.mpr
    refine ⟨c, h', ih f' ?_⟩
    have hcx : c < x := hlt x c h'
    omega

/-- A strictly-decreasing edge relation admits no cycle. -/
theorem lt_rel_acyclic {par : Nat → List Nat}
    (hlt : ∀ x q, q ∈ par x → q < x) :
    ∀ a, ¬ Relation.TransGen (parEdge par) a a := by
  intro a h
  have h2 : Relation.TransGen (fun x y : Nat => y < x) a a :=
    Relation.TransGen.mono (fun x y hxy => hlt x y hxy) h
  have h3 : ∀ b, Relation.TransGen (fun x y : Nat => y < x) a b → b < a := by
    intro b hb
    induction hb with
    | single h1 => exact h1
    | tail hxy hyz ih => exact lt_trans hyz ih
  exact lt_irrefl a (h3 a h2)

/-- In the grafted graph, any path into the graft target already existed. -/
theorem graft_reach_target {par : Nat → List Nat} {t p : Nat} :
    ∀ {x : Nat}, Relation.ReflTransGen (parEdge (graftPar par t p)) x t →
      Relation.ReflTransGen (parEdge par) x t := by
  intro x h
  induction h using Relation.ReflTransGen.head_induction_on with
  | refl => exact Relation.ReflTransGen.refl
  | @head a c h' hrest ih =>
    by_cases ha : a = t
    · exact ha ▸ Relation.ReflTransGen.refl
    · refine Relation.ReflTransGen.head ?_ ih
      unfold parEdge graftPar at h'
      rw [if_neg ha] at h'
      exact h'

/-- In an acyclic graph, a path into the graft target survives the graft:
the path can only visit the target at its end. -/
theorem graft_keep_reach_target {par : Nat → List Nat} {t p : Nat}
    (hacyc : ∀ a, ¬ Relation.TransGen (parEdge par) a a) :
    ∀ {x : Nat}, Relation.ReflTransGen (parEdge par) x t →
      Relation.ReflTransGen (parEdge (graftPar par t p)) x t := by
  intro x h
  induction h using Relation.ReflTransGen.head_induction_on with
  | refl => exact Relation.ReflTransGen.refl
  | @head a c h' hrest ih =>
    by_cases ha : a = t
    · exact absurd (Relation.TransGen.head' (ha ▸ h') (ha ▸ hrest)) (hacyc t)
    · refine Relation.ReflTransGen.head ?_ ih
      show c ∈ graftPar par t p a
      unfold graftPar
      rw [if_neg ha]
      exact h'

/-- Decomposition of grafted paths: a grafted path is either an original path
or passes through the new edge `t → p`. -/
theorem graft_decompose {par : Nat → List Nat} {t p : Nat} :
    ∀ {a b : Nat}, Relation.TransGen (parEdge (graftPar par t p)) a b →
      Relation.TransGen (parEdge par) a b ∨
        (Relation.ReflTransGen (parEdge par) a t ∧
         Relation.ReflTransGen (parEdge (graftPar par t p)) p b) := by
  intro a b h
  induction h using Relation.TransGen.head_induction_on with
  | base h' =>
    rename_i x
    by_cases hx : x = t
    · have hb : b = p := by
        have h2 : b ∈ graftPar par t p x := h'
        rw [hx] at h2
        unfold graftPar at h2
        rw [if_pos rfl] at h2
        simpa using h2
      refine Or.inr ⟨?_, ?_⟩
      · rw [hx]
      · rw [hb]
    · left
      apply Relation.TransGen.single
      have h2 : b ∈ graftPar par t p x := h'
      unfold graftPar at h2
      rw [if_neg hx] at h2
      exact h2
  | ih h' hrest ihp =>
    rename_i x c
    by_cases hx : x = t
    · have hc : c = p := by
        have h2 : c ∈ graftPar par t p x := h'
        rw [hx] at h2
        unfold graftPar at h2
        rw [if_pos rfl] at h2
        simpa using h2
      have hrest2 : Relation.TransGen (parEdge (graftPar par t p)) p b := hc ▸ hrest
      refine Or.inr ⟨?_, hrest2.to_reflTransGen⟩
      rw [hx]
    · have hedge : parEdge par x c := by
        have : c ∈ graftPar par t p x := h'
        unfold graftPar at this
        rw [if_neg hx] at this
        exact this
      rcases ihp with hp | ⟨h1, h2⟩
      · exact Or.inl (Relation.TransGen.head hedge hp)
      · exact Or.inr ⟨Relation.ReflTransGen.head hedge h1, h2⟩

/-- Grafting a non-descendant parent onto a node of an acyclic graph keeps the
graph acyclic. -/
theorem graft_no_cycle {par : Nat → List Nat} {t p : Nat}
    (hacyc : ∀ a, ¬ Relation.TransGen (parEdge par) a a)
    (hnr : ¬ Relation.ReflTransGen (parEdge par) p t) :
    ∀ a, ¬ Relation.TransGen (parEdge (graftPar par t p)) a a := by
  intro a h
  rcases graft_decompose h with h' | ⟨h1, h2⟩
  · exact hacyc a h'
  · exact hnr (graft_reach_target (h2.trans (graft_keep_reach_target hacyc h1)))

/-- Parent shas strictly precede child shas in the adjacency view. -/
theorem parAdj_lt (g : GState)
    (hwf : ∀ c ∈ g.commits, ∀ q ∈ c.parents, q < c.sha) :
    ∀ x q, q ∈ parAdj g x → q < x := by
  intro x q hq
  unfold parAdj at hq
  cases hfind : g.commits.find? (fun c => c.sha == x) with
  | none => rw [hfind] at hq; simp at hq
  | some c =>
    rw [hfind] at hq
    simp only [Option.map_some', Option.getD_some] at hq
    have hc := List.mem_of_find?_eq_some hfind
    have hsha : c.sha = x := by simpa using List.find?_some hfind
    exact hsha ▸ hwf c hc q hq

/-- The rewritten adjacency is the grafted adjacency, provided the target
commit exists. -/
theorem parAdj_graftRewrite (g : GState) (t p : Nat)
    (hex : (g.commits.find? (fun c => c.sha == t)).isSome = true) :
    parAdj (graftRewrite g t p) = graftPar (parAdj g) t p := by
  funext x
  unfold parAdj graftRewrite graftPar
  simp only []
  have hmap : ∀ l : List Commit,
      (l.map (fun c => if c.sha == t then { c with parents := [p] } else c)).find?
          (fun c => c.sha == x) =
        (l.find? (fun c => c.sha == x)).map
          (fun c => if c.sha == t then { c with parents := [p] } else c) := by
    intro l
    induction l with
    | nil => rfl
    | cons c rest ih =>
      have hsha : (if c.sha == t then { c with parents := [p] } else c).sha = c.sha := by
        by_cases h : (c.sha == t) = true <;> simp [h]
      simp only [List.map_cons, List.find?, hsha]
      cases hc : c.sha == x with
      | true => rfl
      | false => exact ih
  rw [hmap]
  by_cases hx : x = t
  · subst hx
    cases hfind : g.commits.find? (fun c => c.sha == x) with
    | none => rw [hfind] at hex; simp at hex
    | some c =>
      have hcs : c.sha = x := by simpa using List.find?_some hfind
      simp [hfind, hcs]
  · cases hfind : g.commits.find? (fun c => c.sha == x) with
    | none => simp [hfind, hx]
    | some c =>
      have hcs : c.sha = x := by simpa using List.find?_some hfind
      have hct : c.sha ≠ t := by rw [hcs]; exact hx
      simp [hfind, hct, hx]

/-- C3: when the new parent is a descendant of the target (the target is an
ancestor of the new parent), `change_commit_parent` fails with the state
intact — the rewrite branch is unreachable — and in every case the resulting
commit graph is acyclic. -/
theorem c3_reparent_cycle_guard (g : GState) (target newParent : Nat)
    (hwf : ∀ c ∈ g.commits, ∀ q ∈ c.parents, q < c.sha) :
    (Relation.ReflTransGen (parEdge (parAdj g)) newParent target →
      change_commit_parent g target newParent = (false, g)) ∧
    (∀ a, ¬ Relation.TransGen
        (parEdge (parAdj (change_commit_parent g target newParent).2)) a a) := by
  have hlt := parAdj_lt g hwf
  have hacyc := lt_rel_acyclic hlt
  constructor
  · intro hreach
    unfold change_commit_parent
    by_cases h1 : (g.commits.find? (fun c => c.sha == target)).isNone = true
    · rw [if_pos h1]
    · rw [if_neg h1]
      by_cases h2 : (g.commits.find? (fun c => c.sha == newParent)).isNone = true
      · rw [if_pos h2]
      · rw [if_neg h2]
        rw [if_pos (isAncB_complete hlt newParent target hreach (newParent + 1)
          (Nat.lt_succ_self _))]
  · intro a
    unfold change_commit_parent
    by_cases h1 : (g.commits.find? (fun c => c.sha == target)).isNone = true
    · rw [if_pos h1]
      exact hacyc a
    · rw [if_neg h1]
      by_cases h2 : (g.commits.find? (fun c => c.sha == newParent)).isNone = true
      · rw [if_pos h2]
        exact hacyc a
      · rw [if_neg h2]
        by_cases h3 : isAncB (parAdj g) (newParent + 1) newParent target = true
        · rw [if_pos h3]
          exact hacyc a
        · rw [if_neg h3]
          simp only []
          have hex : (g.commits.find? (fun c => c.sha == target)).isSome = true := by
            cases hf : g.commits.find? (fun c => c.sha == target) with
            | none => rw [hf] at h1; simp at h1
            | some c => rfl
          rw [parAdj_graftRewrite g target newParent hex]
          refine graft_no_cycle hacyc ?_ a
          intro hreach
          exact h3 (isAncB_complete hlt newParent target hreach (newParent + 1)
            (Nat.lt_succ_self _))

/-- A two-commit graph: commit 1 is a child of commit 0. -/
def g3 : GState := { commits := [{ sha := 0, parents := [] },
  { sha := 1, parents := [0] }], tags := [], headSha := 1 }

/-- Witness for C3: grafting the descendant 1 onto its ancestor 0 is refused
with the state intact, and the resulting graph stays acyclic. -/
theorem c3_witness :
    change_commit_parent g3 0 1 = (false, g3) ∧
    ¬ Relation.TransGen (parEdge (parAdj (change_commit_parent g3 0 1).2)) 5 5 := by
  have h := c3_reparent_cycle_guard g3 0 1 (by decide)
  exact ⟨h.1 (Relation.ReflTransGen.single (show (0 : Nat) ∈ parAdj g3 1 by decide)),
    h.2 5⟩

/-! ### C6 — generation assignment -/

/-- Point updates only raise values that are below the written value. -/
theorem setGen_mono {g : String → Int} {pid : String} {v : Int}
    (hv : g pid ≤ v) : ∀ y, g y ≤ setGen g pid v y := by
  intro y
  unfold setGen
  by_cases hy : y = pid
  · rw [if_pos hy, hy]
    exact hv
  · rw [if_neg hy]

/-- Point updates preserve the `-1` lower bound when the value respects it. -/
theorem setGen_good {g : String → Int} {pid : String} {v : Int}
    (hgood : ∀ y, -1 ≤ g y) (hv : -1 ≤ v) : ∀ y, -1 ≤ setGen g pid v y := by
  intro y
  unfold setGen
  by_cases hy : y = pid
  · rw [if_pos hy]
    exact hv
  · rw [if_neg hy]
    exact hgood y

/-- A child relax step never lowers any generation and keeps the `-1` bound. -/
theorem childRelaxStep_mono (nodeIds : List String) (st : (String → Int) × Bool)
    (e : Edge) (hgood : ∀ y, -1 ≤ st.1 y) :
    (∀ y, st.1 y ≤ (childRelaxStep nodeIds st e).1 y) ∧
    (∀ y, -1 ≤ (childRelaxStep nodeIds st e).1 y) := by
  unfold childRelaxStep
  by_cases hcond : e.etype = EdgeType.child ∧ e.src ∈ nodeIds ∧ e.dst ∈ nodeIds ∧
      st.1 e.src ≠ -1
  · rw [if_pos hcond]
    by_cases hupd : st.1 e.dst = -1 ∨ st.1 e.src + 1 > st.1 e.dst
    · rw [if_pos hupd]
      have hsrc : 0 ≤ st.1 e.src := by
        have := hgood e.src
        have := hcond.2.2.2
        omega
      have hle : st.1 e.dst ≤ st.1 e.src + 1 := by
        rcases hupd with h | h
        · have := hgood e.dst
          omega
        · omega
      exact ⟨setGen_mono hle, setGen_good hgood (by omega)⟩
    · rw [if_neg hupd]
      exact ⟨fun y => le_refl _, hgood⟩
  · rw [if_neg hcond]
    exact ⟨fun y => le_refl _, hgood⟩

/-- A partner leveling step never lowers any generation and keeps the bound. -/
theorem partnerLevelStep_mono (nodeIds : List String) (st : (String → Int) × Bool)
    (e : Edge) (hgood : ∀ y, -1 ≤ st.1 y) :
    (∀ y, st.1 y ≤ (partnerLevelStep nodeIds st e).1 y) ∧
    (∀ y, -1 ≤ (partnerLevelStep nodeIds st e).1 y) := by
  unfold partnerLevelStep
  by_cases hcond : e.etype = EdgeType.partner ∧ e.src ∈ nodeIds ∧ e.dst ∈ nodeIds
  · rw [if_pos hcond]
    simp only []
    by_cases h1 : st.1 e.src ≠ max (st.1 e.src) (st.1 e.dst)
    · rw [if_pos h1]
      simp only []
      have hm1 := @setGen_mono st.1 e.src (max (st.1 e.src) (st.1 e.dst))
        (le_max_left _ _)
      have hg1 := @setGen_good st.1 e.src (max (st.1 e.src) (st.1 e.dst)) hgood
        (le_trans (hgood e.src) (le_max_left _ _))
      by_cases h2 : setGen st.1 e.src (max (st.1 e.src) (st.1 e.dst)) e.dst ≠
          max (st.1 e.src) (st.1 e.dst)
      · rw [if_pos h2]
        have hm2 := @setGen_mono
          (setGen st.1 e.src (max (st.1 e.src) (st.1 e.dst))) e.dst
          (max (st.1 e.src) (st.1 e.dst)) (by
            unfold setGen
            by_cases hds : e.dst = e.src
            · rw [if_pos hds]
            · rw [if_neg hds]
              exact le_max_right _ _)
        have hg2 := @setGen_good
          (setGen st.1 e.src (max (st.1 e.src) (st.1 e.dst))) e.dst
          (max (st.1 e.src) (st.1 e.dst)) hg1
          (le_trans (hgood e.src) (le_max_left _ _))
        exact ⟨fun y => le_trans (hm1 y) (hm2 y), hg2⟩
      · rw [if_neg h2]
        exact ⟨hm1, hg1⟩
    · rw [if_neg h1]
      by_cases h2 : st.1 e.dst ≠ max (st.1 e.src) (st.1 e.dst)
      · rw [if_pos h2]
        exact ⟨setGen_mono (le_max_right _ _),
          setGen_good hgood (le_trans (hgood e.src) (le_max_left _ _))⟩
      · rw [if_neg h2]
        exact ⟨fun y => le_refl _, hgood⟩
  · rw [if_neg hcond]
    exact ⟨fun y => le_refl _, hgood⟩

/-- Folding a monotone, bound-preserving step over a list is monotone and
bound-preserving. -/
theorem foldl_step_mono
    (step : ((String → Int) × Bool) → Edge → ((String → Int) × Bool))
    (hstep : ∀ st e, (∀ y, -1 ≤ st.1 y) →
      (∀ y, st.1 y ≤ (step st e).1 y) ∧ (∀ y, -1 ≤ (step st e).1 y)) :
    ∀ (l : List Edge) (st : (String → Int) × Bool), (∀ y, -1 ≤ st.1 y) →
      (∀ y, st.1 y ≤ (l.foldl step st).1 y) ∧
      (∀ y, -1 ≤ (l.foldl step st).1 y) := by
  intro l
  induction l with
  | nil => exact fun st h => ⟨fun y => le_refl _, h⟩
  | cons e rest ih =>
    intro st hgood
    obtain ⟨h1, h2⟩ := hstep st e hgood
    obtain ⟨h3, h4⟩ := ih (step st e) h2
    exact ⟨fun y => le_trans (h1 y) (h3 y), h4⟩

/-- One full pass is monotone and bound-preserving. -/
theorem generationPass_mono (nodeIds : List String) (edges : List Edge)
    (gens : String → Int) (hgood : ∀ y, -1 ≤ gens y) :
    (∀ y, gens y ≤ (generationPass nodeIds edges gens).1 y) ∧
    (∀ y, -1 ≤ (generationPass nodeIds edges gens).1 y) := by
  unfold generationPass
  obtain ⟨h1, h2⟩ := foldl_step_mono (childRelaxStep nodeIds)
    (childRelaxStep_mono nodeIds) edges (gens, false) hgood
  obtain ⟨h3, h4⟩ := foldl_step_mono (partnerLevelStep nodeIds)
    (partnerLevelStep_mono nodeIds) edges
    (edges.foldl (childRelaxStep nodeIds) (gens, false)) h2
  exact ⟨fun y => le_trans (h1 y) (h3 y), h4⟩

/-- A child relax step that reports no change is the identity. -/
theorem childRelaxStep_flag (nodeIds : List String) (st : (String → Int) × Bool)
    (e : Edge) : (childRelaxStep nodeIds st e).2 = false →
      childRelaxStep nodeIds st e = st := by
  intro h
  unfold childRelaxStep at h ⊢
  by_cases hcond : e.etype = EdgeType.child ∧ e.src ∈ nodeIds ∧ e.dst ∈ nodeIds ∧
      st.1 e.src ≠ -1
  · rw [if_pos hcond] at h ⊢
    by_cases hupd : st.1 e.dst = -1 ∨ st.1 e.src + 1 > st.1 e.dst
    · rw [if_pos hupd] at h
      simp at h
    · rw [if_neg hupd]
  · rw [if_neg hcond]

/-- A partner leveling step that reports no change is the identity. -/
theorem partnerLevelStep_flag (nodeIds : List String) (st : (String → Int) × Bool)
    (e : Edge) : (partnerLevelStep nodeIds st e).2 = false →
      partnerLevelStep nodeIds st e = st := by
  intro h
  unfold partnerLevelStep at h ⊢
  by_cases hcond : e.etype = EdgeType.partner ∧ e.src ∈ nodeIds ∧ e.dst ∈ nodeIds
  · rw [if_pos hcond] at h ⊢
    simp only [] at h ⊢
    by_cases h1 : st.1 e.src ≠ max (st.1 e.src) (st.1 e.dst)
    · rw [if_pos h1] at h ⊢
      simp only [] at h ⊢
      by_cases h2 : setGen st.1 e.src (max (st.1 e.src) (st.1 e.dst)) e.dst ≠
          max (st.1 e.src) (st.1 e.dst)
      · rw [if_pos h2] at h
        simp at h
      · rw [if_neg h2] at h
        simp at h
    · rw [if_neg h1] at h ⊢
      by_cases h2 : st.1 e.dst ≠ max (st.1 e.src) (st.1 e.dst)
      · rw [if_pos h2] at h
        simp at h
      · rw [if_neg h2]
  · rw [if_neg hcond]

/-- If a fold of identity-on-no-change steps reports no change, it is the
identity. -/
theorem foldl_step_flag
    (step : ((String → Int) × Bool) → Edge → ((String → Int) × Bool))
    (hstep : ∀ st e, (step st e).2 = false → step st e = st) :
    ∀ (l : List Edge) (st : (String → Int) × Bool),
      (l.foldl step st).2 = false → l.foldl step st = st := by
  intro l
  induction l with
  | nil => exact fun st h => rfl
  | cons e rest ih =>
    intro st h
    rw [List.foldl_cons] at h ⊢
    have h2 := ih (step st e) h
    rw [h2] at h ⊢
    exact hstep st e h

/-- A pass that reports no change leaves the generation map unchanged. -/
theorem generationPass_flag (nodeIds : List String) (edges : List Edge)
    (gens : String → Int) : (generationPass nodeIds edges gens).2 = false →
      generationPass nodeIds edges gens = (gens, false) := by
  intro h
  unfold generationPass at h ⊢
  have h2 := foldl_step_flag (partnerLevelStep nodeIds)
    (partnerLevelStep_flag nodeIds) edges
    (edges.foldl (childRelaxStep nodeIds) (gens, false)) h
  rw [h2] at h ⊢
  have h3 := foldl_step_flag (childRelaxStep nodeIds)
    (childRelaxStep_flag nodeIds) edges (gens, false) h
  rw [h3]

/-- On normal exit the loop result is a fixpoint of the pass. -/
theorem generationLoop_fixpoint (nodeIds : List String) (edges : List Edge) :
    ∀ (fuel : Nat) (gens : String → Int),
      (generationLoop nodeIds edges fuel gens).2 = false →
      generationPass nodeIds edges (generationLoop nodeIds edges fuel gens).1 =
        ((generationLoop nodeIds edges fuel gens).1, false) := by
  intro fuel
  induction fuel with
  | zero => intro gens h; simp [generationLoop] at h
  | succ f ih =>
    intro gens h
    rw [generationLoop] at h ⊢
    by_cases hch : (generationPass nodeIds edges gens).2 = true
    · rw [if_pos hch] at h ⊢
      exact ih _ h
    · rw [if_neg hch] at h ⊢
      simp only []
      have hfalse : (generationPass nodeIds edges gens).2 = false := by
        cases h' : (generationPass nodeIds edges gens).2
        · rfl
        · exact absurd h' hch
      have hid := generationPass_flag nodeIds edges gens hfalse
      rw [show (generationPass nodeIds edges gens).1 = gens by rw [hid]]
      exact hid

/-- The loop is monotone over its fuel run. -/
theorem generationLoop_mono (nodeIds : List String) (edges : List Edge) :
    ∀ (fuel : Nat) (gens : String → Int), (∀ y, -1 ≤ gens y) →
      ∀ y, gens y ≤ (generationLoop nodeIds edges fuel gens).1 y := by
  intro fuel
  induction fuel with
  | zero => intro gens _ y; exact le_refl _
  | succ f ih =>
    intro gens hgood y
    rw [generationLoop]
    obtain ⟨h1, h2⟩ := generationPass_mono nodeIds edges gens hgood
    by_cases hch : (generationPass nodeIds edges gens).2 = true
    · rw [if_pos hch]
      exact le_trans (h1 y) (ih _ h2 y)
    · rw [if_neg hch]
      exact h1 y

/-- Reading a point update at the written id. -/
theorem setGen_same (g : String → Int) (pid : String) (v : Int) :
    setGen g pid v pid = v := by
  unfold setGen
  rw [if_pos rfl]

/-- Reading a point update elsewhere. -/
theorem setGen_other (g : String → Int) (pid : String) (v : Int) {y : String}
    (h : y ≠ pid) : setGen g pid v y = g y := by
  unfold setGen
  rw [if_neg h]

/-- The child relax step computes `max(child, parent + 1)` whenever the parent
generation is assigned. -/
theorem childRelaxStep_formula (nodeIds : List String)
    (st : (String → Int) × Bool) (e : Edge) (het : e.etype = EdgeType.child)
    (hs : e.src ∈ nodeIds) (hd : e.dst ∈ nodeIds) (hne : st.1 e.src ≠ -1)
    (hge : -1 ≤ st.1 e.src) :
    (childRelaxStep nodeIds st e).1 e.dst = max (st.1 e.dst) (st.1 e.src + 1) := by
  unfold childRelaxStep
  rw [if_pos ⟨het, hs, hd, hne⟩]
  by_cases hupd : st.1 e.dst = -1 ∨ st.1 e.src + 1 > st.1 e.dst
  · rw [if_pos hupd]
    simp only []
    rw [setGen_same]
    have hle : st.1 e.dst ≤ st.1 e.src + 1 := by
      rcases hupd with h | h <;> omega
    rw [max_eq_right hle]
  · rw [if_neg hupd]
    push_neg at hupd
    rw [max_eq_left (by omega)]

/-- The partner leveling step sets both partners to the maximum of their two
generations. -/
theorem partnerLevelStep_formula (nodeIds : List String)
    (st : (String → Int) × Bool) (e : Edge) (het : e.etype = EdgeType.partner)
    (hs : e.src ∈ nodeIds) (hd : e.dst ∈ nodeIds) :
    (partnerLevelStep nodeIds st e).1 e.src = max (st.1 e.src) (st.1 e.dst) ∧
    (partnerLevelStep nodeIds st e).1 e.dst = max (st.1 e.src) (st.1 e.dst) := by
  unfold partnerLevelStep
  rw [if_pos ⟨het, hs, hd⟩]
  simp only []
  by_cases h1 : st.1 e.src ≠ max (st.1 e.src) (st.1 e.dst)
  · rw [if_pos h1]
    simp only []
    by_cases h2 : setGen st.1 e.src (max (st.1 e.src) (st.1 e.dst)) e.dst ≠
        max (st.1 e.src) (st.1 e.dst)
    · rw [if_pos h2]
      simp only []
      constructor
      · by_cases hsd : e.src = e.dst
        · rw [hsd, setGen_same]
        · rw [setGen_other _ _ _ hsd, setGen_same]
      · rw [setGen_same]
    · rw [if_neg h2]
      push_neg at h2
      exact ⟨setGen_same _ _ _, h2⟩
  · rw [if_neg h1]
    push_neg at h1
    by_cases h2 : st.1 e.dst ≠ max (st.1 e.src) (st.1 e.dst)
    · rw [if_pos h2]
      simp only []
      constructor
      · by_cases hsd : e.src = e.dst
        · rw [hsd, setGen_same]
        · rw [setGen_other _ _ _ hsd]
          exact h1
      · rw [setGen_same]
    · rw [if_neg h2]
      push_neg at h2
      exact ⟨h1, h2⟩

/-- C6: roots (persons with no incoming child edge) start at generation 0;
every pass is monotone non-decreasing on every person's generation (given the
`-1` lower bound, which the computation maintains); within one pass each child
edge with an assigned parent is relaxed to `max(child, parent + 1)` and each
partner pair is leveled to the maximum of the two; on normal exit the result
is a fixpoint of the pass; and the loop is run with pass cap `2 × |persons|`,
aborting (flag `true`) when the cap is exhausted while changes continue. -/
theorem c6_generation_assignment (nodeIds : List String) (edges : List Edge) :
    (∀ x ∈ nodeIds, (¬ ∃ e ∈ edges, e.etype = EdgeType.child ∧ e.dst = x) →
      initGens nodeIds edges x = 0) ∧
    (∀ gens : String → Int, (∀ y, -1 ≤ gens y) →
      ∀ y, gens y ≤ (generationPass nodeIds edges gens).1 y) ∧
    (∀ (st : (String → Int) × Bool) (e : Edge), e.etype = EdgeType.child →
      e.src ∈ nodeIds → e.dst ∈ nodeIds → st.1 e.src ≠ -1 → -1 ≤ st.1 e.src →
      (childRelaxStep nodeIds st e).1 e.dst =
        max (st.1 e.dst) (st.1 e.src + 1)) ∧
    (∀ (st : (String → Int) × Bool) (e : Edge), e.etype = EdgeType.partner →
      e.src ∈ nodeIds → e.dst ∈ nodeIds →
      (partnerLevelStep nodeIds st e).1 e.src = max (st.1 e.src) (st.1 e.dst) ∧
      (partnerLevelStep nodeIds st e).1 e.dst = max (st.1 e.src) (st.1 e.dst)) ∧
    ((_calculate_generations nodeIds edges).2 = false →
      generationPass nodeIds edges (_calculate_generations nodeIds edges).1 =
        ((_calculate_generations nodeIds edges).1, false)) ∧
    (_calculate_generations nodeIds edges =
        generationLoop nodeIds edges (2 * nodeIds.length)
          (initGens nodeIds edges) ∧
      ∀ gens : String → Int, generationLoop nodeIds edges 0 gens = (gens, true)) := by
  refine ⟨?_, ?_, ?_, ?_, ?_, rfl, fun _ => rfl⟩
  · intro x hx hroot
    unfold initGens
    rw [if_pos ⟨hx, hroot⟩]
  · intro gens hgood
    exact (generationPass_mono nodeIds edges gens hgood).1
  · intro st e het hs hd hne hge
    exact childRelaxStep_formula nodeIds st e het hs hd hne hge
  · intro st e het hs hd
    exact partnerLevelStep_formula nodeIds st e het hs hd
  · exact generationLoop_fixpoint nodeIds edges (2 * nodeIds.length)
      (initGens nodeIds edges)

/-- A two-person store for the generation witnesses. -/
def nodesW : List String := ["a", "b"]

/-- One child edge from `"a"` to `"b"`. -/
def edgesW : List Edge := [{ src := "a", dst := "b", etype := EdgeType.child }]

/-- Witness for C6: the root starts at 0, a pass does not decrease the child's
generation, and the computation exits at a fixpoint within the cap. -/
theorem c6_witness :
    initGens nodesW edgesW "a" = 0 ∧
    initGens nodesW edgesW "b" ≤
      (generationPass nodesW edgesW (initGens nodesW edgesW)).1 "b" ∧
    generationPass nodesW edgesW (_calculate_generations nodesW edgesW).1 =
      ((_calculate_generations nodesW edgesW).1, false) := by
  refine ⟨?_, ?_, ?_⟩
  · exact (c6_generation_assignment nodesW edgesW).1 "a" (by decide) (by decide)
  · exact (c6_generation_assignment nodesW edgesW).2.1 (initGens nodesW edgesW)
      (by
        intro y
        unfold initGens
        split <;> omega) "b"
  · exact (c6_generation_assignment nodesW edgesW).2.2.2.2.1 (by decide)

/-! ### C10 — unreachable persons keep the -1 sentinel -/

/-- Closure of the forward relaxation: the ids whose generation the loop can
ever assign — roots, children of reachable parents, partners of reachable
persons. -/
inductive GenReachable (nodeIds : List String) (edges : List Edge) : String → Prop
  | root (x : String) (hx : x ∈ nodeIds)
      (hroot : ¬ ∃ e ∈ edges, e.etype = EdgeType.child ∧ e.dst = x) :
      GenReachable nodeIds edges x
  | fromParent (e : Edge) (he : e ∈ edges) (het : e.etype = EdgeType.child)
      (hp : GenReachable nodeIds edges e.src) : GenReachable nodeIds edges e.dst
  | fromPartnerL (e : Edge) (he : e ∈ edges) (het : e.etype = EdgeType.partner)
      (hp : GenReachable nodeIds edges e.src) : GenReachable nodeIds edges e.dst
  | fromPartnerR (e : Edge) (he : e ∈ edges) (het : e.etype = EdgeType.partner)
      (hp : GenReachable nodeIds edges e.dst) : GenReachable nodeIds edges e.src

/-- A child relax step assigns generations only to reachable persons. -/
theorem childRelaxStep_inv (nodeIds : List String) (edges : List Edge)
    (st : (String → Int) × Bool) (e : Edge) (he : e ∈ edges)
    (hinv : ∀ y, st.1 y ≠ -1 → GenReachable nodeIds edges y) :
    ∀ y, (childRelaxStep nodeIds st e).1 y ≠ -1 → GenReachable nodeIds edges y := by
  intro y hy
  unfold childRelaxStep at hy
  by_cases hcond : e.etype = EdgeType.child ∧ e.src ∈ nodeIds ∧ e.dst ∈ nodeIds ∧
      st.1 e.src ≠ -1
  · rw [if_pos hcond] at hy
    by_cases hupd : st.1 e.dst = -1 ∨ st.1 e.src + 1 > st.1 e.dst
    · rw [if_pos hupd] at hy
      simp only [] at hy
      by_cases hyd : y = e.dst
      · subst hyd
        exact GenReachable.fromParent e he hcond.1 (hinv e.src hcond.2.2.2)
      · rw [setGen_other _ _ _ hyd] at hy
        exact hinv y hy
    · rw [if_neg hupd] at hy
      exact hinv y hy
  · rw [if_neg hcond] at hy
    exact hinv y hy

/-- A partner leveling step assigns generations only to reachable persons. -/
theorem partnerLevelStep_inv (nodeIds : List String) (edges : List Edge)
    (st : (String → Int) × Bool) (e : Edge) (he : e ∈ edges)
    (hinv : ∀ y, st.1 y ≠ -1 → GenReachable nodeIds edges y) :
    ∀ y, (partnerLevelStep nodeIds st e).1 y ≠ -1 →
      GenReachable nodeIds edges y := by
  intro y hy
  unfold partnerLevelStep at hy
  by_cases hcond : e.etype = EdgeType.partner ∧ e.src ∈ nodeIds ∧ e.dst ∈ nodeIds
  · rw [if_pos hcond] at hy
    simp only [] at hy
    have hmax : max (st.1 e.src) (st.1 e.dst) ≠ -1 →
        GenReachable nodeIds edges e.src ∧ GenReachable nodeIds edges e.dst := by
      intro hm
      rcases max_cases (st.1 e.src) (st.1 e.dst) with ⟨hv, _⟩ | ⟨hv, _⟩
      · rw [hv] at hm
        have h1 := hinv e.src hm
        exact ⟨h1, GenReachable.fromPartnerL e he hcond.1 h1⟩
      · rw [hv] at hm
        have h1 := hinv e.dst hm
        exact ⟨GenReachable.fromPartnerR e he hcond.1 h1, h1⟩
    by_cases h1 : st.1 e.src ≠ max (st.1 e.src) (st.1 e.dst)
    · rw [if_pos h1] at hy
      simp only [] at hy
      by_cases h2 : setGen st.1 e.src (max (st.1 e.src) (st.1 e.dst)) e.dst ≠
          max (st.1 e.src) (st.1 e.dst)
      · rw [if_pos h2] at hy
        simp only [] at hy
        by_cases hyd : y = e.dst
        · subst hyd
          rw [setGen_same] at hy
          exact (hmax hy).2
        · rw [setGen_other _ _ _ hyd] at hy
          by_cases hys : y = e.src
          · subst hys
            rw [setGen_same] at hy
            exact (hmax hy).1
          · rw [setGen_other _ _ _ hys] at hy
            exact hinv y hy
      · rw [if_neg h2] at hy
        simp only [] at hy
        by_cases hys : y = e.src
        · subst hys
          rw [setGen_same] at hy
          exact (hmax hy).1
        · rw [setGen_other _ _ _ hys] at hy
          exact hinv y hy
    · rw [if_neg h1] at hy
      by_cases h2 : st.1 e.dst ≠ max (st.1 e.src) (st.1 e.dst)
      · rw [if_pos h2] at hy
        simp only [] at hy
        by_cases hyd : y = e.dst
        · subst hyd
          rw [setGen_same] at hy
          exact (hmax hy).2
        · rw [setGen_other _ _ _ hyd] at hy
          exact hinv y hy
      · rw [if_neg h2] at hy
        exact hinv y hy
  · rw [if_neg hcond] at hy
    exact hinv y hy

/-- Folding reachability-preserving steps preserves the invariant. -/
theorem foldl_step_inv (nodeIds : List String) (edges : List Edge)
    (step : ((String → Int) × Bool) → Edge → ((String → Int) × Bool))
    (hstep : ∀ st e, e ∈ edges →
      (∀ y, st.1 y ≠ -1 → GenReachable nodeIds edges y) →
      ∀ y, (step st e).1 y ≠ -1 → GenReachable nodeIds edges y) :
    ∀ (l : List Edge), (∀ e ∈ l, e ∈ edges) →
      ∀ st : (String → Int) × Bool,
        (∀ y, st.1 y ≠ -1 → GenReachable nodeIds edges y) →
        ∀ y, ((l.foldl step st).1 y ≠ -1) → GenReachable nodeIds edges y := by
  intro l
  induction l with
  | nil => exact fun _ st hinv => hinv
  | cons e rest ih =>
    intro hmem st hinv
    exact ih (fun q hq => hmem q (List.mem_cons_of_mem _ hq)) (step st e)
      (hstep st e (hmem e (List.mem_cons_self _ _)) hinv)

/-- The generation loop assigns generations only to reachable persons. -/
theorem generationLoop_inv (nodeIds : List String) (edges : List Edge) :
    ∀ (fuel : Nat) (gens : String → Int),
      (∀ y, gens y ≠ -1 → GenReachable nodeIds edges y) →
      ∀ y, (generationLoop nodeIds edges fuel gens).1 y ≠ -1 →
        GenReachable nodeIds edges y := by
  intro fuel
  induction fuel with
  | zero => exact fun gens hinv => hinv
  | succ f ih =>
    intro gens hinv y
    rw [generationLoop]
    have hpass : ∀ y, (generationPass nodeIds edges gens).1 y ≠ -1 →
        GenReachable nodeIds edges y := by
      unfold generationPass
      exact foldl_step_inv nodeIds edges (partnerLevelStep nodeIds)
        (fun st e he h => partnerLevelStep_inv nodeIds edges st e he h)
        edges (fun e he => he) _
        (foldl_step_inv nodeIds edges (childRelaxStep nodeIds)
          (fun st e he h => childRelaxStep_inv nodeIds edges st e he h)
          edges (fun e he => he) (gens, false) hinv)
    by_cases hch : (generationPass nodeIds edges gens).2 = true
    · rw [if_pos hch]
      exact ih _ hpass y
    · rw [if_neg hch]
      exact hpass y

/-- C10: a person who is the target of a child edge but is not in the forward
relaxation closure keeps the sentinel generation `-1` when
`_calculate_generations` finishes, and `export_to_json` writes that `-1` into
the exported nodes unchanged. -/
theorem c10_unreachable_keeps_sentinel (nodeIds : List String)
    (edges : List Edge) (p : String)
    (_hchild : ∃ e ∈ edges, e.etype = EdgeType.child ∧ e.dst = p)
    (hnr : ¬ GenReachable nodeIds edges p) :
    (_calculate_generations nodeIds edges).1 p = -1 ∧
    (∀ pr ∈ export_nodes nodeIds edges, pr.1 = p → pr.2 = -1) := by
  have hinit : ∀ y, initGens nodeIds edges y ≠ -1 →
      GenReachable nodeIds edges y := by
    intro y hy
    unfold initGens at hy
    by_cases hc : y ∈ nodeIds ∧ ¬ ∃ e ∈ edges, e.etype = EdgeType.child ∧ e.dst = y
    · exact GenReachable.root y hc.1 hc.2
    · rw [if_neg hc] at hy
      exact absurd rfl hy
  have hinv := generationLoop_inv nodeIds edges (2 * nodeIds.length)
    (initGens nodeIds edges) hinit
  have hp : (_calculate_generations nodeIds edges).1 p = -1 := by
    by_cases h : (_calculate_generations nodeIds edges).1 p = -1
    · exact h
    · exact absurd (hinv p h) hnr
  refine ⟨hp, ?_⟩
  intro pr hpr hpr1
  unfold export_nodes at hpr
  simp only [List.mem_map] at hpr
  obtain ⟨nid, _, rfl⟩ := hpr
  simp only [] at hpr1 ⊢
  rw [hpr1]
  exact hp

/-- A two-person parent cycle: each is a child of the other. -/
def edgesCyc : List Edge :=
  [{ src := "a", dst := "b", etype := EdgeType.child },
   { src := "b", dst := "a", etype := EdgeType.child }]

/-- Nobody is reachable in the two-person parent cycle: both persons have an
incoming child edge, so there is no root to start relaxation from. -/
theorem edgesCyc_no_reach : ∀ x, ¬ GenReachable nodesW edgesCyc x := by
  intro x h
  induction h with
  | root y hy hroot =>
    have hy2 : y = "a" ∨ y = "b" := by simpa [nodesW] using hy
    rcases hy2 with rfl | rfl
    · exact hroot ⟨{ src := "b", dst := "a", etype := EdgeType.child },
        by simp [edgesCyc], rfl, rfl⟩
    · exact hroot ⟨{ src := "a", dst := "b", etype := EdgeType.child },
        by simp [edgesCyc], rfl, rfl⟩
  | fromParent e he het hp ih => exact ih
  | fromPartnerL e he het hp ih =>
    have : e.etype = EdgeType.child := by
      rcases (by simpa [edgesCyc] using he :
        e = { src := "a", dst := "b", etype := EdgeType.child } ∨
        e = { src := "b", dst := "a", etype := EdgeType.child }) with rfl | rfl <;> rfl
    rw [this] at het
    exact EdgeType.noConfusion het
  | fromPartnerR e he het hp ih =>
    have : e.etype = EdgeType.child := by
      rcases (by simpa [edgesCyc] using he :
        e = { src := "a", dst := "b", etype := EdgeType.child } ∨
        e = { src := "b", dst := "a", etype := EdgeType.child }) with rfl | rfl <;> rfl
    rw [this] at het
    exact EdgeType.noConfusion het

/-- Witness for C10: in the two-person parent cycle, person `"a"` (a child-edge
target unreachable from any root) keeps generation `-1`, in the computation and
in the export. -/
theorem c10_witness :
    (_calculate_generations nodesW edgesCyc).1 "a" = -1 ∧
    ("a", (-1 : Int)) ∈ export_nodes nodesW edgesCyc := by
  have h := c10_unreachable_keeps_sentinel nodesW edgesCyc "a"
    ⟨{ src := "b", dst := "a", etype := EdgeType.child }, by simp [edgesCyc],
      rfl, rfl⟩
    (edgesCyc_no_reach "a")
  refine ⟨h.1, ?_⟩
  unfold export_nodes
  simp only [List.mem_map]
  exact ⟨"a", by simp [nodesW], by rw [h.1]⟩

/-! ### C4 — add_child validation -/

/-- C4 (amended): `add_child` fails with the ancestor error and no mutation
whenever the resolved child is an ancestor of either resolved parent or equals
either parent; when no such conflict exists and a marriage already exists
between the child and either parent, it fails with the child-partner-conflict
error and no mutation.  The ancestor/equality check runs first, and both
checks precede every graph rewrite (each failure returns the input state). -/
theorem c4_add_child_guards (data : List PersonRec) (g : GState)
    (pick : List PersonRec → Nat) (cm cc ca : Bool) (fIn mIn cIn : String) :
    (∀ (father mother child : String) (fa ma : Finset String),
      _resolve_person_id_input data g pick fIn = some father →
      _resolve_person_id_input data g pick mIn = some mother →
      _resolve_person_id_input data g pick cIn = some child →
      getAncestorsF (parentsMapOf g data) (data.length + 1) father = some fa →
      getAncestorsF (parentsMapOf g data) (data.length + 1) mother = some ma →
      child ∈ insert mother (insert father (fa ∪ ma)) →
      add_child data g pick cm cc ca fIn mIn cIn = some (.ancestorErr, g)) ∧
    (∀ (father mother child : String) (fa ma : Finset String),
      _resolve_person_id_input data g pick fIn = some father →
      _resolve_person_id_input data g pick mIn = some mother →
      _resolve_person_id_input data g pick cIn = some child →
      getAncestorsF (parentsMapOf g data) (data.length + 1) father = some fa →
      getAncestorsF (parentsMapOf g data) (data.length + 1) mother = some ma →
      child ∉ insert mother (insert father (fa ∪ ma)) →
      ((_find_marriage_commit g child father).isSome = true ∨
        (_find_marriage_commit g child mother).isSome = true) →
      add_child data g pick cm cc ca fIn mIn cIn = some (.partnerErr, g)) := by
  constructor
  · intro father mother child fa ma hfr hmr hcr hfa hma hmem
    unfold add_child
    rw [hfr, hmr, hcr]
    simp only []
    rw [hfa, hma]
    simp only []
    rw [if_pos hmem]
  · intro father mother child fa ma hfr hmr hcr hfa hma hnmem hmar
    unfold add_child
    rw [hfr, hmr, hcr]
    simp only []
    rw [hfa, hma]
    simp only []
    rw [if_neg hnmem, if_pos hmar]

/-- The attribute store for the C4 counterexample: persons A and C. -/
def dataAC : List PersonRec := [personA, personC]

/-- The graph for the C4 counterexample: A and C are married. -/
def gac : GState :=
  { commits := [{ sha := 0, parents := [] }, { sha := 1, parents := [0] },
                { sha := 2, parents := [0] }, { sha := 3, parents := [1, 2] }],
    tags := [("GRAPH_ROOT", 0), ("aaaaaaaa", 1), ("cccccccc", 2),
             ("marriage_aaaaaaaa_cccccccc", 3)],
    headSha := 3 }

/-- C4 counterexample (the spec's own scenario): `add_child(father = A,
mother = C, child = C)` where C is already a partner of A.  A marriage between
the child and a parent exists, yet the call fails with the ancestor/equality
error — not the child-partner-conflict error — because the
`all_ancestors` check (which contains both parents) runs first. -/
theorem c4_counterexample :
    (_find_marriage_commit gac "cccccccc" "aaaaaaaa").isSome = true ∧
    add_child dataAC gac pickW true true true "aaaaaaaa" "cccccccc" "cccccccc" =
      some (.ancestorErr, gac) ∧
    add_child dataAC gac pickW true true true "aaaaaaaa" "cccccccc" "cccccccc" ≠
      some (.partnerErr, gac) := by
  decide

/-- The graph for the C4 witness: C is married to A; B is unmarried. -/
def gacB : GState :=
  { commits := [{ sha := 0, parents := [] }, { sha := 1, parents := [0] },
                { sha := 2, parents := [0] }, { sha := 3, parents := [0] },
                { sha := 4, parents := [3, 1] }],
    tags := [("GRAPH_ROOT", 0), ("aaaaaaaa", 1), ("bbbbbbbb", 2),
             ("cccccccc", 3), ("marriage_cccccccc_aaaaaaaa", 4)],
    headSha := 4 }

/-- Witness for C4: adding C as a child of A and B while C is married to A
(and is no ancestor of either) fails with the child-partner-conflict error and
leaves the state unchanged; the self-as-mother call fails with the ancestor
error unchanged. -/
theorem c4_witness :
    add_child dataW gacB pickW true true true "aaaaaaaa" "bbbbbbbb" "cccccccc" =
      some (.partnerErr, gacB) ∧
    add_child dataAC gac pickW true true true "aaaaaaaa" "cccccccc" "cccccccc" =
      some (.ancestorErr, gac) :=
  ⟨(c4_add_child_guards dataW gacB pickW true true true "aaaaaaaa" "bbbbbbbb"
      "cccccccc").2 "aaaaaaaa" "bbbbbbbb" "cccccccc" ∅ ∅ (by decide) (by decide)
      (by decide) (by decide) (by decide) (by decide) (Or.inl (by decide)),
   (c4_add_child_guards dataAC gac pickW true true true "aaaaaaaa" "cccccccc"
      "cccccccc").1 "aaaaaaaa" "cccccccc" "cccccccc" ∅ ∅ (by decide) (by decide)
      (by decide) (by decide) (by decide) (by decide)⟩
